import Mathlib

/-! # LRU and LFU caches of `LRU_LFU.cpp`

A shallow embedding of the two cache classes of `src/LRU_LFU.cpp`.

Modelling conventions.

* `std::list<T>` is a Lean list whose head is `front()` and whose last element is
  `back()`.  Every list node carries the address it was allocated at, so that a
  `std::list<T>::iterator` is just that address (`DList`).  Dereferencing or erasing
  through an address that is not live in the list is undefined behaviour in C++ and
  yields `none` here.
* `std::unordered_map<A, B>` is an association list used only through `find`,
  `erase`, `assign` (`m[k] = v`) and `size` (`UMap`).
* Node allocation takes the address `fresh` and increments it, so a new node never
  shares its address with a live one.
* `std::size_t` capacities are natural numbers, the constructor argument `int cap`
  is converted modulo `2 ^ 64`.  The `int freq` counter of the LFU nodes is an
  unbounded natural number.
* `bool get(KeyT, ValueT*)` returns the new cache, the returned flag and the value
  written through the pointer (`none` when nothing is written).
-/

namespace LruLfu

/-! ## Containers -/

/-- Model of `std::unordered_map<α, β>`. -/
abbrev UMap (α β : Type) := List (α × β)

namespace UMap

variable {α β : Type} [DecidableEq α]

/-- Model of `m.find(k)`: the mapped value, `none` standing for `m.end()`. -/
def find : UMap α β → α → Option β
  | [], _ => none
  | (a, b) :: m, k => if a = k then some b else find m k

/-- Model of `m.erase(k)`. -/
def erase (m : UMap α β) (k : α) : UMap α β :=
  m.filter (fun p => !decide (p.1 = k))

/-- Model of `m[k] = v`. -/
def assign (m : UMap α β) (k : α) (v : β) : UMap α β :=
  (k, v) :: erase m k

/-- Model of `m.size()`. -/
def size (m : UMap α β) : Nat := m.length

/-- Model of the map left behind by evaluating `m[k]`: an absent key is inserted
with the default value `d`. -/
def index (m : UMap α β) (k : α) (d : β) : UMap α β :=
  match find m k with
  | some _ => m
  | none => (k, d) :: m

/-- Model of the reference returned by `m[k]`, `d` being the default value. -/
def getD (m : UMap α β) (k : α) (d : β) : β :=
  match find m k with
  | some v => v
  | none => d

/-- Keys of the map. -/
def keys (m : UMap α β) : List α := m.map Prod.fst

end UMap

/-- Model of `std::list<T>`: nodes tagged with their address, front first. -/
abbrev DList (T : Type) := List (Nat × T)

namespace DList

variable {T : Type}

/-- Model of `*it`: the payload of the node at address `it`. -/
def deref : DList T → Nat → Option T
  | [], _ => none
  | (a, x) :: l, it => if a = it then some x else deref l it

/-- The list without the node at address `it`. -/
def remove : DList T → Nat → DList T
  | [], _ => []
  | (a, x) :: l, it => if a = it then l else (a, x) :: remove l it

/-- Model of `l.erase(it)`; `none` when `it` is not a node of `l`. -/
def erase (l : DList T) (it : Nat) : Option (DList T) :=
  match deref l it with
  | some _ => some (remove l it)
  | none => none

/-- Model of `l.push_front(x)`, the new node being allocated at `addr`. -/
def push_front (l : DList T) (addr : Nat) (x : T) : DList T := (addr, x) :: l

/-- Model of `l.back()`; `none` on an empty list. -/
def back (l : DList T) : Option T := l.getLast?.map Prod.snd

/-- Model of `l.pop_back()`. -/
def pop_back (l : DList T) : DList T := l.dropLast

/-- Payloads of the list, front first. -/
def items (l : DList T) : List T := l.map Prod.snd

/-- Addresses of the nodes. -/
def addrs (l : DList T) : List Nat := l.map Prod.fst

end DList

/-- Conversion of an `int` to `std::size_t`. -/
def toSizeT (n : Int) : Nat := (n % 2 ^ 64).toNat

/-- A call made by a client of a cache. -/
inductive Op (K V : Type) where
  | put (key : K) (value : V)
  | get (key : K)
  deriving DecidableEq, Repr

/-! ## LRUCache -/

/-- State of `LRUCache<KeyT, ValueT>`. -/
structure LRUCache (K V : Type) where
  m_capacity : Nat
  m_list : DList (K × V)
  m_map : UMap K Nat
  fresh : Nat
  deriving DecidableEq, Repr

namespace LRUCache

variable {K V : Type} [DecidableEq K]

/-- Constructor `LRUCache(int cap)`. -/
def new (cap : Int) : LRUCache K V :=
  { m_capacity := toSizeT cap, m_list := [], m_map := [], fresh := 0 }

/-- Lines 56-60 of `put`: an existing entry is erased from list and map. -/
def dropOld (c : LRUCache K V) (key : K) : Option (DList (K × V) × UMap K Nat) :=
  match UMap.find c.m_map key with
  | some it =>
    match DList.erase c.m_list it with
    | some l => some (l, UMap.erase c.m_map key)
    | none => none
  | none => some (c.m_list, c.m_map)

/-- Model of `LRUCache::put`. -/
def put (c : LRUCache K V) (key : K) (value : V) : Option (LRUCache K V × Bool) :=
  match dropOld c key with
  | none => none
  | some (l0, m0) =>
    let l1 := DList.push_front l0 c.fresh (key, value)
    let m1 := UMap.assign m0 key c.fresh
    if l1.length > c.m_capacity then
      match DList.back l1 with
      | none => none
      | some endNode =>
        let endKey := endNode.1
        some ({ c with m_list := DList.pop_back l1, m_map := UMap.erase m1 endKey,
                       fresh := c.fresh + 1 }, true)
    else
      some ({ c with m_list := l1, m_map := m1, fresh := c.fresh + 1 }, true)

/-- Model of `LRUCache::get`: new state, returned flag, value written to `*pvalue`. -/
def get (c : LRUCache K V) (key : K) : Option (LRUCache K V × Bool × Option V) :=
  match UMap.find c.m_map key with
  | none => some (c, false, none)
  | some listIter =>
    match DList.deref c.m_list listIter with
    | none => none
    | some node =>
      let value := node.2
      let l := DList.push_front (DList.remove c.m_list listIter) c.fresh (key, value)
      let m := UMap.assign c.m_map key c.fresh
      some ({ c with m_list := l, m_map := m, fresh := c.fresh + 1 }, true, some value)

/-- One client call. -/
def step (c : LRUCache K V) : Op K V → Option (LRUCache K V)
  | Op.put k v => (put c k v).map Prod.fst
  | Op.get k => (get c k).map Prod.fst

/-- A sequence of client calls, left to right. -/
def run (c : LRUCache K V) : List (Op K V) → Option (LRUCache K V)
  | [] => some c
  | o :: os =>
    match step c o with
    | none => none
    | some c1 => run c1 os

/-- States reached from a freshly constructed cache. -/
def Reachable (cap : Int) (s : LRUCache K V) : Prop :=
  ∃ ops : List (Op K V), run (new cap) ops = some s

/-- Entries of the recency sequence, most recent first. -/
def entries (c : LRUCache K V) : List (K × V) := DList.items c.m_list

end LRUCache

/-! ## LFUCache -/

/-- Model of `struct Node<KeyT, ValueT>`. -/
structure Node (K V : Type) where
  key : K
  value : V
  freq : Nat
  deriving DecidableEq, Repr

/-- Model of `Freq_Table`. -/
abbrev FreqTable (K V : Type) := UMap Nat (DList (Node K V))

/-- Model of `*it` for an iterator into one of the lists of the frequency table. -/
def FreqTable.deref {K V : Type} : FreqTable K V → Nat → Option (Node K V)
  | [], _ => none
  | (_, l) :: ft, it =>
    match DList.deref l it with
    | some n => some n
    | none => FreqTable.deref ft it

/-- All nodes held by the lists of the frequency table. -/
def FreqTable.nodes {K V : Type} (ft : FreqTable K V) : DList (Node K V) :=
  (ft.map Prod.snd).flatten

/-- State of `LFUCache<KeyT, ValueT>`. -/
structure LFUCache (K V : Type) where
  m_minfreq : Nat
  m_capacity : Nat
  m_freqTable : FreqTable K V
  m_keyTable : UMap K Nat
  fresh : Nat
  deriving DecidableEq, Repr

namespace LFUCache

variable {K V : Type} [DecidableEq K]

/-- Constructor `LFUCache(int cap = 1)` called with an argument. -/
def new (cap : Int) : LFUCache K V :=
  { m_minfreq := 0, m_capacity := toSizeT cap, m_freqTable := [], m_keyTable := [],
    fresh := 0 }

/-- Constructor `LFUCache(int cap = 1)` called without argument. -/
def newDefault : LFUCache K V := new 1

/-- The statements shared by `get` (lines 165-179) and the existing-key branch of
`put` (lines 206-214): the node at `node`, of frequency `freq`, is unlinked from its
list and a node `(key, value, freq + 1)` is pushed on the list of `freq + 1`. -/
def relink (c : LFUCache K V) (key : K) (node : Nat) (freq : Nat) (value : V) :
    Option (LFUCache K V) :=
  let ft1 := UMap.index c.m_freqTable freq []
  match DList.erase (UMap.getD ft1 freq []) node with
  | none => none
  | some l1 =>
    let ft2 := UMap.assign ft1 freq l1
    let emptied := decide ((UMap.getD ft2 freq []).length = 0)
    let ft3 := if emptied then UMap.erase ft2 freq else ft2
    let minfreq := if emptied && decide (c.m_minfreq = freq) then c.m_minfreq + 1
                   else c.m_minfreq
    let ft4 := UMap.index ft3 (freq + 1) []
    let ft5 := UMap.assign ft4 (freq + 1)
      (DList.push_front (UMap.getD ft4 (freq + 1) []) c.fresh
        { key := key, value := value, freq := freq + 1 })
    some { c with m_minfreq := minfreq, m_freqTable := ft5,
                  m_keyTable := UMap.assign c.m_keyTable key c.fresh,
                  fresh := c.fresh + 1 }

/-- Model of `LFUCache::get`: new state, returned flag, value written to `*pValue`. -/
def get (c : LFUCache K V) (key : K) : Option (LFUCache K V × Bool × Option V) :=
  match UMap.find c.m_keyTable key with
  | none => some (c, false, none)
  | some node =>
    match FreqTable.deref c.m_freqTable node with
    | none => none
    | some n =>
      match relink c key node n.freq n.value with
      | none => none
      | some c1 => some (c1, true, some n.value)

/-- Lines 191-198 of `put`: when the cache is full the back of the list of
`m_minfreq` is evicted.  Returns the frequency table and the key table. -/
def evict (c : LFUCache K V) : Option (FreqTable K V × UMap K Nat) :=
  if c.m_capacity = UMap.size c.m_keyTable then
    let ft1 := UMap.index c.m_freqTable c.m_minfreq []
    match DList.back (UMap.getD ft1 c.m_minfreq []) with
    | none => none
    | some it =>
      let kt := UMap.erase c.m_keyTable it.key
      let ft2 := UMap.assign ft1 c.m_minfreq (DList.pop_back (UMap.getD ft1 c.m_minfreq []))
      let ft3 := if (UMap.getD ft2 c.m_minfreq []).length = 0
                 then UMap.erase ft2 c.m_minfreq else ft2
      some (ft3, kt)
  else some (c.m_freqTable, c.m_keyTable)

/-- Model of `LFUCache::put`. -/
def put (c : LFUCache K V) (key : K) (value : V) : Option (LFUCache K V × Bool) :=
  match UMap.find c.m_keyTable key with
  | none =>
    match evict c with
    | none => none
    | some (ft, kt) =>
      let ft1 := UMap.index ft 1 []
      let ft2 := UMap.assign ft1 1
        (DList.push_front (UMap.getD ft1 1 []) c.fresh { key := key, value := value, freq := 1 })
      some ({ c with m_minfreq := 1, m_freqTable := ft2,
                     m_keyTable := UMap.assign kt key c.fresh,
                     fresh := c.fresh + 1 }, true)
  | some node =>
    match FreqTable.deref c.m_freqTable node with
    | none => none
    | some n =>
      match relink c key node n.freq value with
      | none => none
      | some c1 => some (c1, true)

/-- One client call. -/
def step (c : LFUCache K V) : Op K V → Option (LFUCache K V)
  | Op.put k v => (put c k v).map Prod.fst
  | Op.get k => (get c k).map Prod.fst

/-- A sequence of client calls, left to right. -/
def run (c : LFUCache K V) : List (Op K V) → Option (LFUCache K V)
  | [] => some c
  | o :: os =>
    match step c o with
    | none => none
    | some c1 => run c1 os

/-- States reached from a freshly constructed cache. -/
def Reachable (cap : Int) (s : LFUCache K V) : Prop :=
  ∃ ops : List (Op K V), run (new cap) ops = some s

/-- The node the key table resolves `key` to. -/
def lookup (c : LFUCache K V) (key : K) : Option (Node K V) :=
  match UMap.find c.m_keyTable key with
  | none => none
  | some it => FreqTable.deref c.m_freqTable it

/-- Keys and values of the list of frequency `f`, most recent first. -/
def bucket (c : LFUCache K V) (f : Nat) : List (K × V) :=
  (DList.items (UMap.getD c.m_freqTable f [])).map (fun n => (n.key, n.value))

end LFUCache

/-! ## Invariants and auxiliary definitions -/

namespace LRUCache

variable {K V : Type} [DecidableEq K]

/-- Index pairs `(key, address)` read off the recency list. -/
def listIndex (l : DList (K × V)) : List (K × Nat) := l.map (fun n => (n.2.1, n.1))

/-- Representation invariant of `LRUCache`: live nodes have distinct addresses below
`fresh` and distinct keys, and the map holds exactly the pairs `(key, address)` of
the list. -/
structure WF (s : LRUCache K V) : Prop where
  addrs_nodup : (DList.addrs s.m_list).Nodup
  keys_nodup : (s.m_list.map (fun n => n.2.1)).Nodup
  addrs_lt : ∀ n ∈ s.m_list, n.1 < s.fresh
  map_perm : s.m_map.Perm (listIndex s.m_list)

/-- Effect of `put` on the entry list. -/
def putEntries (cap : Nat) (es : List (K × V)) (k : K) (v : V) : List (K × V) :=
  if ((k, v) :: es.filter (fun e => !decide (e.1 = k))).length > cap
  then ((k, v) :: es.filter (fun e => !decide (e.1 = k))).dropLast
  else (k, v) :: es.filter (fun e => !decide (e.1 = k))

/-- The value held for `key`, read the way `get` reads it: through the map, then
through the iterator. -/
def lookup (c : LRUCache K V) (key : K) : Option V :=
  match UMap.find c.m_map key with
  | none => none
  | some it => (DList.deref c.m_list it).map Prod.snd

/-- The calls `put(k, v)` for the pairs of a list, in order. -/
def puts (kvs : List (K × V)) : List (Op K V) := kvs.map (fun p => Op.put p.1 p.2)

/-- Invariant of the reachable states: well-formed and within capacity. -/
def Good (s : LRUCache K V) : Prop := WF s ∧ s.m_list.length ≤ s.m_capacity

end LRUCache

namespace FreqTable

variable {K V : Type}

/-- Index pairs `(key, address)` read off the nodes of the table. -/
def keyIndex (ft : FreqTable K V) : List (K × Nat) :=
  (nodes ft).map (fun n => (n.2.key, n.1))

/-- The table whose list of frequency `f` has become `l`, an empty list being erased
from the table. -/
def setBucket (ft : FreqTable K V) (f : Nat) (l : DList (Node K V)) : FreqTable K V :=
  if l.length = 0 then UMap.erase ft f else UMap.assign ft f l

/-- The table after `ft[g].push_front(x)`, the node being allocated at `addr`. -/
def link (ft : FreqTable K V) (g : Nat) (addr : Nat) (x : Node K V) : FreqTable K V :=
  UMap.assign (UMap.index ft g []) g
    (DList.push_front (UMap.getD (UMap.index ft g []) g []) addr x)

end FreqTable

namespace LFUCache

variable {K V : Type} [DecidableEq K]

/-- Representation invariant of the two tables of `LFUCache`: frequencies index
distinct, non-empty lists of nodes carrying that frequency (at least 1), live nodes
have distinct addresses below `fresh` and distinct keys, and the key table holds
exactly the pairs `(key, address)` of the nodes. -/
structure TableWF (ft : FreqTable K V) (kt : UMap K Nat) (fresh : Nat) : Prop where
  freqs_nodup : (UMap.keys ft).Nodup
  addrs_nodup : (DList.addrs (FreqTable.nodes ft)).Nodup
  keys_nodup : ((FreqTable.nodes ft).map (fun n => n.2.key)).Nodup
  addrs_lt : ∀ n ∈ FreqTable.nodes ft, n.1 < fresh
  bucket_ok : ∀ f l, (f, l) ∈ ft → l ≠ [] ∧ 1 ≤ f ∧ ∀ n ∈ l, n.2.freq = f
  table_perm : kt.Perm (FreqTable.keyIndex ft)

/-- `m_minfreq` is the least frequency of the table. -/
def MinFreqOK (ft : FreqTable K V) (minfreq : Nat) : Prop :=
  minfreq ∈ UMap.keys ft ∧ ∀ f ∈ UMap.keys ft, minfreq ≤ f

/-- Representation invariant of `LFUCache`. -/
structure WF (s : LFUCache K V) : Prop where
  tables : TableWF s.m_freqTable s.m_keyTable s.fresh
  minfreq_ok : s.m_keyTable ≠ [] → MinFreqOK s.m_freqTable s.m_minfreq

/-- The state `relink` produces when the node at `it` sits in the list `l` of
frequency `f`. -/
def relinked (s : LFUCache K V) (k : K) (it f : Nat) (l : DList (Node K V)) (v : V) :
    LFUCache K V :=
  { s with
    m_minfreq := if (DList.remove l it).length = 0 ∧ s.m_minfreq = f then s.m_minfreq + 1
                 else s.m_minfreq,
    m_freqTable := FreqTable.link (FreqTable.setBucket s.m_freqTable f (DList.remove l it))
                     (f + 1) s.fresh { key := k, value := v, freq := f + 1 },
    m_keyTable := UMap.assign s.m_keyTable k s.fresh,
    fresh := s.fresh + 1 }

/-- The state the absent-key branch of `put` produces from the tables `ft0`, `kt0`
left by the eviction step. -/
def inserted (s : LFUCache K V) (ft0 : FreqTable K V) (kt0 : UMap K Nat) (k : K) (v : V) :
    LFUCache K V :=
  { s with
    m_minfreq := 1,
    m_freqTable := FreqTable.link ft0 1 s.fresh { key := k, value := v, freq := 1 },
    m_keyTable := UMap.assign kt0 k s.fresh,
    fresh := s.fresh + 1 }

/-- The state of a capacity-3 cache after `put k1, put k2, put k3`. -/
def scenario3 (k1 k2 k3 : K) (v1 v2 v3 : V) : LFUCache K V :=
  { m_minfreq := 1, m_capacity := 3,
    m_freqTable := [(1, [(2, { key := k3, value := v3, freq := 1 }),
                         (1, { key := k2, value := v2, freq := 1 }),
                         (0, { key := k1, value := v1, freq := 1 })])],
    m_keyTable := [(k3, 2), (k2, 1), (k1, 0)],
    fresh := 3 }

/-- The state of a capacity-3 cache after `put k1, put k2, put k3, get k1`. -/
def scenario4 (k1 k2 k3 : K) (v1 v2 v3 : V) : LFUCache K V :=
  { m_minfreq := 1, m_capacity := 3,
    m_freqTable := [(2, [(3, { key := k1, value := v1, freq := 2 })]),
                    (1, [(2, { key := k3, value := v3, freq := 1 }),
                         (1, { key := k2, value := v2, freq := 1 })])],
    m_keyTable := [(k1, 3), (k3, 2), (k2, 1)],
    fresh := 4 }

/-- The state of a capacity-3 cache after `put k1, put k2, put k3, get k1, get k2`. -/
def scenario5 (k1 k2 k3 : K) (v1 v2 v3 : V) : LFUCache K V :=
  { m_minfreq := 1, m_capacity := 3,
    m_freqTable := [(2, [(4, { key := k2, value := v2, freq := 2 }),
                         (3, { key := k1, value := v1, freq := 2 })]),
                    (1, [(2, { key := k3, value := v3, freq := 1 })])],
    m_keyTable := [(k2, 4), (k1, 3), (k3, 2)],
    fresh := 5 }

/-- Invariant of the reachable states: well-formed and within capacity. -/
def Good (s : LFUCache K V) : Prop :=
  WF s ∧ UMap.size s.m_keyTable ≤ s.m_capacity

end LFUCache

/-! # Theorems -/

set_option linter.unusedSectionVars false
set_option linter.unusedVariables false

/-! ## Container lemmas -/

namespace UMap

variable {α β : Type} [DecidableEq α]

theorem find_erase (m : UMap α β) (k k' : α) :
    find (erase m k) k' = if k' = k then none else find m k' := by
  induction m with
  | nil => simp [erase, find]
  | cons p m ih =>
    obtain ⟨a, b⟩ := p
    by_cases hak : a = k
    · subst hak
      have : erase ((a, b) :: m) a = erase m a := by simp [erase]
      rw [this, ih]
      by_cases h : k' = a
      · simp [h]
      · have h2 : ¬ a = k' := fun e => h e.symm
        simp [h, find, h2]
    · have : erase ((a, b) :: m) k = (a, b) :: erase m k := by simp [erase, hak]
      rw [this]
      by_cases h : a = k'
      · subst h
        simp [find, hak]
      · simp only [find, h, if_false, ih]

theorem find_assign (m : UMap α β) (k k' : α) (v : β) :
    find (assign m k v) k' = if k = k' then some v else find m k' := by
  by_cases h : k = k'
  · simp [assign, find, h]
  · have h2 : ¬ k' = k := fun e => h e.symm
    simp [assign, find, h, find_erase, h2]

theorem find_eq_none_iff (m : UMap α β) (k : α) : find m k = none ↔ k ∉ keys m := by
  induction m with
  | nil => simp [find, keys]
  | cons p m ih =>
    obtain ⟨a, b⟩ := p
    by_cases h : a = k
    · simp [find, keys, h]
    · have h2 : ¬ k = a := fun e => h e.symm
      simp only [find, h, if_false, ih, keys, List.map_cons, List.mem_cons, h2, false_or]

theorem mem_of_find (m : UMap α β) (k : α) (v : β) (h : find m k = some v) : (k, v) ∈ m := by
  induction m with
  | nil => simp [find] at h
  | cons p m ih =>
    obtain ⟨a, b⟩ := p
    by_cases hak : a = k
    · simp [find, hak] at h
      simp [hak, h]
    · simp only [find, hak, if_false] at h
      exact List.mem_cons_of_mem _ (ih h)

theorem find_of_mem (m : UMap α β) (k : α) (v : β) (hn : (keys m).Nodup) (h : (k, v) ∈ m) :
    find m k = some v := by
  induction m with
  | nil => simp at h
  | cons p m ih =>
    obtain ⟨a, b⟩ := p
    simp only [keys, List.map_cons, List.nodup_cons] at hn
    rcases List.mem_cons.1 h with h | h
    · cases h
      simp [find]
    · have hk : k ∈ m.map Prod.fst := List.mem_map.2 ⟨(k, v), h, rfl⟩
      have hak : ¬ a = k := fun e => hn.1 (e ▸ hk)
      simp only [find, hak, if_false]
      exact ih hn.2 h

theorem keys_erase (m : UMap α β) (k : α) :
    keys (erase m k) = (keys m).filter (fun a => !decide (a = k)) := by
  induction m with
  | nil => simp [keys, erase]
  | cons p m ih =>
    obtain ⟨a, b⟩ := p
    simp only [keys, erase] at ih
    by_cases h : a = k
    · simp [keys, erase, h, ih]
    · simp [keys, erase, h, ih]

theorem erase_of_not_mem (m : UMap α β) (k : α) (h : k ∉ keys m) : erase m k = m := by
  unfold erase
  rw [List.filter_eq_self]
  intro p hp
  have : p.1 ∈ keys m := List.mem_map.2 ⟨p, hp, rfl⟩
  have hne : p.1 ≠ k := fun e => h (e ▸ this)
  simpa using hne

theorem erase_erase (m : UMap α β) (k : α) : erase (erase m k) k = erase m k := by
  simp [erase, List.filter_filter]

theorem mem_erase (m : UMap α β) (k : α) (p : α × β) :
    p ∈ erase m k ↔ p ∈ m ∧ p.1 ≠ k := by
  simp [erase, List.mem_filter]

end UMap

namespace DList

variable {T : Type}

theorem mem_of_deref (l : DList T) (it : Nat) (x : T) (h : deref l it = some x) :
    (it, x) ∈ l := by
  induction l with
  | nil => simp [deref] at h
  | cons p l ih =>
    obtain ⟨a, b⟩ := p
    by_cases hak : a = it
    · simp [deref, hak] at h
      simp [hak, h]
    · simp only [deref, hak, if_false] at h
      exact List.mem_cons_of_mem _ (ih h)

theorem deref_of_mem (l : DList T) (it : Nat) (x : T) (hn : (addrs l).Nodup)
    (h : (it, x) ∈ l) : deref l it = some x := by
  induction l with
  | nil => simp at h
  | cons p l ih =>
    obtain ⟨a, b⟩ := p
    simp only [addrs, List.map_cons, List.nodup_cons] at hn
    rcases List.mem_cons.1 h with h | h
    · cases h
      simp [deref]
    · have hk : it ∈ l.map Prod.fst := List.mem_map.2 ⟨(it, x), h, rfl⟩
      have hak : ¬ a = it := fun e => hn.1 (e ▸ hk)
      simp only [deref, hak, if_false]
      exact ih hn.2 h

theorem deref_eq_none_iff (l : DList T) (it : Nat) : deref l it = none ↔ it ∉ addrs l := by
  induction l with
  | nil => simp [deref, addrs]
  | cons p l ih =>
    obtain ⟨a, b⟩ := p
    by_cases h : a = it
    · simp [deref, addrs, h]
    · have h2 : ¬ it = a := fun e => h e.symm
      simp only [deref, h, if_false, ih, addrs, List.map_cons, List.mem_cons, h2, false_or]

theorem remove_eq_filter (l : DList T) (it : Nat) (hn : (addrs l).Nodup) :
    remove l it = l.filter (fun n => !decide (n.1 = it)) := by
  induction l with
  | nil => simp [remove]
  | cons p l ih =>
    obtain ⟨a, b⟩ := p
    simp only [addrs, List.map_cons, List.nodup_cons] at hn
    by_cases h : a = it
    · subst h
      have : l.filter (fun n => !decide (n.1 = a)) = l := by
        rw [List.filter_eq_self]
        intro q hq
        have : q.1 ∈ l.map Prod.fst := List.mem_map.2 ⟨q, hq, rfl⟩
        have hne : q.1 ≠ a := fun e => hn.1 (e ▸ this)
        simpa using hne
      simp [remove, this]
    · simp [remove, h, ih hn.2]

theorem remove_of_not_mem (l : DList T) (it : Nat) (h : it ∉ addrs l) : remove l it = l := by
  induction l with
  | nil => simp [remove]
  | cons p l ih =>
    obtain ⟨a, b⟩ := p
    simp only [addrs, List.map_cons, List.mem_cons, not_or] at h
    have h1 : ¬ a = it := fun e => h.1 e.symm
    simp only [remove, h1, if_false]
    rw [ih h.2]

end DList

/-! ## LRUCache: representation invariant and behaviour on the entry list -/

namespace UMap

variable {α β : Type} [DecidableEq α]

theorem index_of_find {m : UMap α β} {k : α} {v : β} (d : β) (h : find m k = some v) :
    index m k d = m := by
  simp [index, h]

theorem getD_of_find {m : UMap α β} {k : α} {v : β} (d : β) (h : find m k = some v) :
    getD m k d = v := by
  simp [getD, h]

theorem getD_index (m : UMap α β) (k : α) (d : β) : getD (index m k d) k d = getD m k d := by
  cases h : find m k with
  | none => simp [index, getD, h, find]
  | some v => simp [index, h]

theorem erase_cons_self (m : UMap α β) (k : α) (v : β) : erase ((k, v) :: m) k = erase m k := by
  simp [erase]

theorem assign_index (m : UMap α β) (k : α) (d v : β) :
    assign (index m k d) k v = assign m k v := by
  cases h : find m k with
  | none => simp [index, h, assign, erase_cons_self]
  | some v => simp [index, h]

theorem getD_assign_self (m : UMap α β) (k : α) (d v : β) : getD (assign m k v) k d = v := by
  simp [getD, find_assign]

theorem erase_assign_self (m : UMap α β) (k : α) (v : β) :
    erase (assign m k v) k = erase m k := by
  simp [assign, erase_cons_self, erase_erase]

theorem keys_assign (m : UMap α β) (k : α) (v : β) :
    keys (assign m k v) = k :: (keys m).filter (fun a => !decide (a = k)) := by
  have := keys_erase m k
  simp only [keys] at this
  simp only [assign, keys, List.map_cons, this]

theorem nodup_keys_erase (m : UMap α β) (k : α) (h : (keys m).Nodup) :
    (keys (erase m k)).Nodup := by
  rw [keys_erase]
  exact h.sublist (List.filter_sublist _)

theorem not_mem_keys_erase (m : UMap α β) (k : α) : k ∉ keys (erase m k) := by
  rw [keys_erase]
  simp [List.mem_filter]

theorem nodup_keys_assign (m : UMap α β) (k : α) (v : β) (h : (keys m).Nodup) :
    (keys (assign m k v)).Nodup := by
  rw [keys_assign, List.nodup_cons]
  refine ⟨by simp [List.mem_filter], h.sublist (List.filter_sublist _)⟩

theorem mem_assign (m : UMap α β) (k : α) (v : β) (p : α × β) :
    p ∈ assign m k v ↔ p = (k, v) ∨ (p ∈ m ∧ p.1 ≠ k) := by
  simp [assign, mem_erase]

theorem mem_keys_of_mem {m : UMap α β} {p : α × β} (h : p ∈ m) : p.1 ∈ keys m :=
  List.mem_map.2 ⟨p, h, rfl⟩

theorem find_isSome_of_mem_keys (m : UMap α β) (k : α) (h : k ∈ keys m) :
    ∃ v, find m k = some v := by
  cases hf : find m k with
  | none => exact absurd h ((find_eq_none_iff m k).1 hf)
  | some v => exact ⟨v, rfl⟩

theorem mem_keys_of_find {m : UMap α β} {k : α} {v : β} (h : find m k = some v) :
    k ∈ keys m :=
  mem_keys_of_mem (mem_of_find m k v h)

theorem size_assign_of_not_mem (m : UMap α β) (k : α) (v : β) (h : k ∉ keys m) :
    size (assign m k v) = size m + 1 := by
  simp [size, assign, erase_of_not_mem m k h]

theorem size_erase_of_mem (m : UMap α β) (k : α) (hn : (keys m).Nodup) (h : k ∈ keys m) :
    size (erase m k) + 1 = size m := by
  induction m with
  | nil => simp [keys] at h
  | cons p m ih =>
    obtain ⟨a, b⟩ := p
    simp only [keys, List.map_cons, List.nodup_cons] at hn
    by_cases hak : a = k
    · subst hak
      rw [erase_cons_self, erase_of_not_mem m a hn.1]
      simp [size]
    · have hk : k ∈ keys m := by
        simp only [keys, List.map_cons, List.mem_cons] at h
        rcases h with h | h
        · exact absurd h.symm hak
        · exact h
      have := ih hn.2 hk
      have e : erase ((a, b) :: m) k = (a, b) :: erase m k := by simp [erase, hak]
      rw [e]
      simp only [size, List.length_cons] at this ⊢
      omega

theorem size_assign_of_mem (m : UMap α β) (k : α) (v : β) (hn : (keys m).Nodup)
    (h : k ∈ keys m) : size (assign m k v) = size m := by
  have := size_erase_of_mem m k hn h
  simp only [size, assign, List.length_cons] at this ⊢
  omega

end UMap

namespace DList

variable {T : Type}

theorem deref_append (l1 l2 : DList T) (it : Nat) :
    deref (l1 ++ l2) it = match deref l1 it with
      | some n => some n
      | none => deref l2 it := by
  induction l1 with
  | nil => simp [deref]
  | cons p l ih =>
    obtain ⟨a, b⟩ := p
    by_cases h : a = it
    · simp [deref, h]
    · have e : ((a, b) :: l) ++ l2 = (a, b) :: (l ++ l2) := rfl
      rw [e]
      simp only [deref, h, if_false]
      exact ih

theorem pop_back_eq_remove (l : DList T) (last : Nat × T) (hn : (addrs l).Nodup)
    (hl : l.getLast? = some last) : pop_back l = remove l last.1 := by
  obtain ⟨init, rfl⟩ : ∃ init, l = init ++ [last] := by
    rcases List.eq_nil_or_concat l with h | ⟨i, b, h⟩
    · simp [h] at hl
    · rw [List.concat_eq_append] at h
      subst h
      simp at hl
      exact ⟨i, by rw [hl]⟩
  rw [remove_eq_filter _ _ hn]
  simp only [addrs, List.map_append, List.map_cons, List.map_nil] at hn
  have hk : last.1 ∉ init.map Prod.fst := by
    intro hm
    exact (List.nodup_append.1 hn).2.2 hm (by simp)
  have e1 : init.filter (fun n => !decide (n.1 = last.1)) = init := by
    rw [List.filter_eq_self]
    intro n hn'
    have : n.1 ≠ last.1 := fun e => hk (List.mem_map.2 ⟨n, hn', e⟩)
    simpa using this
  simp [pop_back, List.filter_append, e1]

end DList

namespace FreqTable

variable {K V : Type}

theorem nodes_cons (f : Nat) (l : DList (Node K V)) (ft : FreqTable K V) :
    nodes ((f, l) :: ft) = l ++ nodes ft := by
  simp [nodes]

theorem nodes_assign (ft : FreqTable K V) (f : Nat) (l : DList (Node K V)) :
    nodes (UMap.assign ft f l) = l ++ nodes (UMap.erase ft f) := by
  simp [UMap.assign, nodes_cons]

theorem deref_eq (ft : FreqTable K V) (it : Nat) :
    FreqTable.deref ft it = DList.deref (nodes ft) it := by
  induction ft with
  | nil => simp [FreqTable.deref, nodes, DList.deref]
  | cons p ft ih =>
    obtain ⟨f, l⟩ := p
    rw [nodes_cons, DList.deref_append, FreqTable.deref, ih]
    cases DList.deref l it <;> rfl

theorem mem_nodes (ft : FreqTable K V) (n : Nat × Node K V) :
    n ∈ nodes ft ↔ ∃ f l, (f, l) ∈ ft ∧ n ∈ l := by
  simp only [nodes, List.mem_flatten, List.mem_map]
  constructor
  · rintro ⟨l, ⟨p, hp, rfl⟩, hn⟩
    exact ⟨p.1, p.2, hp, hn⟩
  · rintro ⟨f, l, hp, hn⟩
    exact ⟨l, ⟨(f, l), hp, rfl⟩, hn⟩

theorem nodes_perm_getD (ft : FreqTable K V) (f : Nat) (hn : (UMap.keys ft).Nodup) :
    (nodes ft).Perm (UMap.getD ft f [] ++ nodes (UMap.erase ft f)) := by
  induction ft with
  | nil => simp [nodes, UMap.getD, UMap.find, UMap.erase]
  | cons p ft ih =>
    obtain ⟨g, l0⟩ := p
    simp only [UMap.keys, List.map_cons, List.nodup_cons] at hn
    by_cases h : g = f
    · subst h
      rw [UMap.erase_cons_self, UMap.erase_of_not_mem ft g hn.1]
      simp [UMap.getD, UMap.find, nodes_cons]
    · have e : UMap.erase ((g, l0) :: ft) f = (g, l0) :: UMap.erase ft f := by
        simp [UMap.erase, h]
      have e2 : UMap.getD ((g, l0) :: ft) f [] = UMap.getD ft f [] := by
        simp [UMap.getD, UMap.find, h]
      rw [e, e2, nodes_cons, nodes_cons]
      exact ((ih hn.2).append_left l0).trans (List.perm_append_comm_assoc _ _ _)

end FreqTable

namespace LRUCache

variable {K V : Type} [DecidableEq K]

theorem listIndex_keys (l : DList (K × V)) :
    (listIndex l).map Prod.fst = l.map (fun n => n.2.1) := by
  simp [listIndex, List.map_map, Function.comp_def]

theorem WF.map_keys_perm {s : LRUCache K V} (h : WF s) :
    (UMap.keys s.m_map).Perm (s.m_list.map (fun n => n.2.1)) := by
  have := h.map_perm.map Prod.fst
  rwa [listIndex_keys] at this

theorem WF.map_keys_nodup {s : LRUCache K V} (h : WF s) : (UMap.keys s.m_map).Nodup :=
  h.map_keys_perm.nodup_iff.2 h.keys_nodup

theorem WF.size_eq {s : LRUCache K V} (h : WF s) : UMap.size s.m_map = s.m_list.length := by
  have := h.map_perm.length_eq
  simpa [UMap.size, listIndex] using this

theorem WF.find_some_iff {s : LRUCache K V} (h : WF s) (k : K) (it : Nat) :
    UMap.find s.m_map k = some it ↔ ∃ v, (it, (k, v)) ∈ s.m_list := by
  constructor
  · intro hf
    have hm := (h.map_perm.mem_iff).1 (UMap.mem_of_find _ _ _ hf)
    obtain ⟨n, hn, he⟩ := List.mem_map.1 hm
    obtain ⟨a, k', v⟩ := n
    simp only [Prod.mk.injEq] at he
    obtain ⟨rfl, rfl⟩ := he
    exact ⟨v, hn⟩
  · rintro ⟨v, hv⟩
    apply UMap.find_of_mem _ _ _ h.map_keys_nodup
    exact (h.map_perm.mem_iff).2 (List.mem_map.2 ⟨_, hv, rfl⟩)

theorem WF.find_none_iff {s : LRUCache K V} (h : WF s) (k : K) :
    UMap.find s.m_map k = none ↔ k ∉ (entries s).map Prod.fst := by
  rw [UMap.find_eq_none_iff, h.map_keys_perm.mem_iff]
  simp [entries, DList.items, List.map_map, Function.comp_def]

theorem WF.lru_addr_eq_iff_key_eq {s : LRUCache K V} (h : WF s) {it : Nat} {k : K} {v : V}
    (hm : (it, (k, v)) ∈ s.m_list) (n : Nat × K × V) (hn : n ∈ s.m_list) :
    n.1 = it ↔ n.2.1 = k := by
  constructor
  · intro e
    have := List.inj_on_of_nodup_map h.addrs_nodup hn hm e
    rw [this]
  · intro e
    have := List.inj_on_of_nodup_map h.keys_nodup hn hm e
    rw [this]

theorem WF.remove_eq {s : LRUCache K V} (h : WF s) {it : Nat} {k : K} {v : V}
    (hm : (it, (k, v)) ∈ s.m_list) :
    DList.remove s.m_list it = s.m_list.filter (fun n => !decide (n.2.1 = k)) := by
  rw [DList.remove_eq_filter _ _ h.addrs_nodup]
  apply List.filter_congr
  intro n hn
  have := h.lru_addr_eq_iff_key_eq hm n hn
  by_cases e : n.1 = it
  · simp [e, this.1 e]
  · have e2 : ¬ n.2.1 = k := fun x => e (this.2 x)
    simp [e, e2]

theorem WF.dropOld_eq {s : LRUCache K V} (h : WF s) (k : K) :
    dropOld s k = some (s.m_list.filter (fun n => !decide (n.2.1 = k)),
      UMap.erase s.m_map k) := by
  unfold dropOld
  cases hf : UMap.find s.m_map k with
  | none =>
    have hk : k ∉ UMap.keys s.m_map := (UMap.find_eq_none_iff _ _).1 hf
    have hk2 : k ∉ s.m_list.map (fun n => n.2.1) := fun x => hk (h.map_keys_perm.mem_iff.2 x)
    have e1 : s.m_list.filter (fun n => !decide (n.2.1 = k)) = s.m_list := by
      rw [List.filter_eq_self]
      intro n hn
      have : n.2.1 ≠ k := fun e => hk2 (List.mem_map.2 ⟨n, hn, e⟩)
      simpa using this
    simp [e1, UMap.erase_of_not_mem _ _ hk]
  | some it =>
    obtain ⟨v, hv⟩ := (h.find_some_iff k it).1 hf
    have hd := DList.deref_of_mem _ _ _ h.addrs_nodup hv
    simp [DList.erase, hd, h.remove_eq hv]

end LRUCache

namespace LRUCache

variable {K V : Type} [DecidableEq K]

theorem listIndex_filter (l : DList (K × V)) (k : K) :
    (listIndex l).filter (fun p => !decide (p.1 = k))
      = listIndex (l.filter (fun n => !decide (n.2.1 = k))) := by
  simp [listIndex, List.filter_map, Function.comp_def]

theorem WF.push {s : LRUCache K V} (h : WF s) (k : K) (v : V) :
    WF { s with m_list := DList.push_front
                  (s.m_list.filter (fun n => !decide (n.2.1 = k))) s.fresh (k, v),
                m_map := UMap.assign s.m_map k s.fresh,
                fresh := s.fresh + 1 } := by
  have hsub : (s.m_list.filter (fun n => !decide (n.2.1 = k))).Sublist s.m_list :=
    List.filter_sublist _
  constructor
  · simp only [DList.addrs, DList.push_front, List.map_cons, List.nodup_cons]
    constructor
    · intro hm
      obtain ⟨n, hn, he⟩ := List.mem_map.1 hm
      have := h.addrs_lt n (hsub.subset hn)
      omega
    · exact h.addrs_nodup.sublist (hsub.map _)
  · simp only [DList.push_front, List.map_cons, List.nodup_cons]
    constructor
    · intro hm
      obtain ⟨n, hn, he⟩ := List.mem_map.1 hm
      have := (List.mem_filter.1 hn).2
      simp [he] at this
    · exact h.keys_nodup.sublist (hsub.map _)
  · intro n hn
    simp only [DList.push_front, List.mem_cons] at hn
    rcases hn with rfl | hn
    · simp
    · have := h.addrs_lt n (hsub.subset hn)
      simp only
      omega
  · simp only [UMap.assign, DList.push_front, listIndex, List.map_cons]
    apply List.Perm.cons
    have := h.map_perm.filter (fun p => !decide (p.1 = k))
    rw [listIndex_filter] at this
    exact this

theorem WF.pop {s : LRUCache K V} (h : WF s) (init : DList (K × V)) (last : Nat × K × V)
    (hl : s.m_list = init ++ [last]) :
    WF { s with m_list := init, m_map := UMap.erase s.m_map last.2.1 } := by
  have h1 := h.addrs_nodup
  have h2 := h.keys_nodup
  have h3 := h.addrs_lt
  have h4 := h.map_perm
  rw [hl] at h1 h2 h3 h4
  simp only [DList.addrs, List.map_append, List.map_cons, List.map_nil] at h1 h2
  have hk : last.2.1 ∉ init.map (fun n => n.2.1) := by
    intro hm
    have := (List.nodup_append.1 h2).2.2
    exact this hm (by simp) 
  constructor
  · exact (List.nodup_append.1 h1).1
  · exact (List.nodup_append.1 h2).1
  · intro n hn
    exact h3 n (List.mem_append_left _ hn)
  · have := h4.filter (fun p => !decide (p.1 = last.2.1))
    rw [listIndex_filter] at this
    have e : (init ++ [last]).filter (fun n => !decide (n.2.1 = last.2.1)) = init := by
      rw [List.filter_append]
      have e1 : init.filter (fun n => !decide (n.2.1 = last.2.1)) = init := by
        rw [List.filter_eq_self]
        intro n hn
        have : n.2.1 ≠ last.2.1 := fun e => hk (List.mem_map.2 ⟨n, hn, e⟩)
        simpa using this
      simp [e1]
    rw [e] at this
    exact this

/-- On a well-formed cache `put` succeeds, returns `true`, keeps the cache
well-formed and acts on the entry list as `putEntries`. -/
theorem WF.lru_put_spec {s : LRUCache K V} (h : WF s) (k : K) (v : V) :
    ∃ s1, put s k v = some (s1, true) ∧ WF s1 ∧ s1.m_capacity = s.m_capacity ∧
      entries s1 = putEntries s.m_capacity (entries s) k v := by
  have hp := h.push k v
  have hent : DList.items (s.m_list.filter (fun n => !decide (n.2.1 = k)))
      = (entries s).filter (fun e => !decide (e.1 = k)) := by
    simp [entries, DList.items, List.filter_map, Function.comp_def]
  unfold put
  rw [h.dropOld_eq k]
  simp only [UMap.assign, UMap.erase_erase]
  by_cases hc : (DList.push_front (s.m_list.filter (fun n => !decide (n.2.1 = k)))
      s.fresh (k, v)).length > s.m_capacity
  · rw [if_pos hc]
    have hne : DList.push_front (s.m_list.filter (fun n => !decide (n.2.1 = k)))
        s.fresh (k, v) ≠ [] := by simp [DList.push_front]
    obtain ⟨init, last, hil⟩ := (List.eq_nil_or_concat _).resolve_left hne
    have hil2 : DList.push_front (s.m_list.filter (fun n => !decide (n.2.1 = k)))
        s.fresh (k, v) = init ++ [last] := by rw [hil, List.concat_eq_append]
    have hback : DList.back (DList.push_front
        (s.m_list.filter (fun n => !decide (n.2.1 = k))) s.fresh (k, v)) = some last.2 := by
      simp [DList.back, hil2]
    rw [hback]
    refine ⟨_, rfl, ?_, rfl, ?_⟩
    · have := hp.pop init last hil2
      simpa [DList.pop_back, hil2, UMap.assign] using this
    · have hlen : ((k, v) :: (entries s).filter (fun e => !decide (e.1 = k))).length
          > s.m_capacity := by
        have := congrArg List.length hent
        simp only [DList.items, List.length_map] at this
        simp only [DList.push_front, List.length_cons] at hc
        simp only [List.length_cons]
        omega
      unfold putEntries
      rw [if_pos hlen, ← hent]
      simp [entries, DList.pop_back, DList.push_front, DList.items, List.map_dropLast]
  · rw [if_neg hc]
    refine ⟨_, rfl, ?_, rfl, ?_⟩
    · simpa [UMap.assign] using hp
    · have hlen : ¬ ((k, v) :: (entries s).filter (fun e => !decide (e.1 = k))).length
          > s.m_capacity := by
        have := congrArg List.length hent
        simp only [DList.items, List.length_map] at this
        simp only [DList.push_front, List.length_cons] at hc
        simp only [List.length_cons]
        omega
      unfold putEntries
      rw [if_neg hlen, ← hent]
      simp [entries, DList.push_front, DList.items]

end LRUCache

namespace LRUCache

variable {K V : Type} [DecidableEq K]

theorem get_miss (s : LRUCache K V) (k : K) (h : UMap.find s.m_map k = none) :
    get s k = some (s, false, none) := by
  simp [get, h]

/-- On a well-formed cache a `get` of a stored key succeeds, returns its value and
moves its entry to the front. -/
theorem WF.lru_get_hit {s : LRUCache K V} (h : WF s) (k : K) (v : V) (hm : (k, v) ∈ entries s) :
    ∃ s1, get s k = some (s1, true, some v) ∧ WF s1 ∧ s1.m_capacity = s.m_capacity ∧
      entries s1 = (k, v) :: (entries s).filter (fun e => !decide (e.1 = k)) := by
  obtain ⟨n, hn, he⟩ := List.mem_map.1 hm
  obtain ⟨it, k', v'⟩ := n
  simp only [Prod.mk.injEq] at he
  obtain ⟨rfl, rfl⟩ := he
  have hf := (h.find_some_iff k' it).2 ⟨v', hn⟩
  have hd := DList.deref_of_mem _ _ _ h.addrs_nodup hn
  have hp := h.push k' v'
  refine ⟨{ s with m_list := DList.push_front (DList.remove s.m_list it) s.fresh (k', v'),
                     m_map := UMap.assign s.m_map k' s.fresh,
                     fresh := s.fresh + 1 }, ?_, ?_, rfl, ?_⟩
  · simp only [get, hf, hd]
  · simpa [h.remove_eq hn] using hp
  · simp [entries, DList.items, DList.push_front, h.remove_eq hn, List.filter_map,
      Function.comp_def]

theorem lru_wf_new (cap : Int) : WF (new cap : LRUCache K V) := by
  constructor <;> simp [new, DList.addrs, listIndex]

theorem lru_good_new (cap : Int) : Good (new cap : LRUCache K V) :=
  ⟨lru_wf_new cap, by simp [new]⟩

theorem length_putEntries_le (cap : Nat) (es : List (K × V)) (k : K) (v : V)
    (h : es.length ≤ cap) : (putEntries cap es k v).length ≤ cap := by
  have hf := List.length_filter_le (fun e : K × V => !decide (e.1 = k)) es
  unfold putEntries
  split
  · simp only [List.length_dropLast, List.length_cons]
    omega
  · rename_i hc
    omega

theorem length_entries (s : LRUCache K V) : (entries s).length = s.m_list.length := by
  simp [entries, DList.items]

theorem Good.put {s : LRUCache K V} (h : Good s) (k : K) (v : V) :
    ∃ s1, put s k v = some (s1, true) ∧ Good s1 ∧ s1.m_capacity = s.m_capacity ∧
      entries s1 = putEntries s.m_capacity (entries s) k v := by
  obtain ⟨s1, h1, h2, h3, h4⟩ := h.1.lru_put_spec k v
  refine ⟨s1, h1, ⟨h2, ?_⟩, h3, h4⟩
  have := length_putEntries_le s.m_capacity (entries s) k v (by rw [length_entries]; exact h.2)
  rw [← h4, length_entries] at this
  rw [h3]
  exact this

theorem Good.get {s : LRUCache K V} (h : Good s) (k : K) :
    ∃ s1 r, get s k = some (s1, r) ∧ Good s1 ∧ s1.m_capacity = s.m_capacity := by
  cases hf : UMap.find s.m_map k with
  | none => exact ⟨s, _, get_miss s k hf, h, rfl⟩
  | some it =>
    obtain ⟨v, hv⟩ := (h.1.find_some_iff k it).1 hf
    have hm : (k, v) ∈ entries s := List.mem_map.2 ⟨_, hv, rfl⟩
    obtain ⟨s1, h1, h2, h3, h4⟩ := h.1.lru_get_hit k v hm
    refine ⟨s1, _, h1, ⟨h2, ?_⟩, h3⟩
    have hlen := congrArg List.length h4
    have hf2 := List.length_filter_le (fun e : K × V => !decide (e.1 = k)) (entries s)
    have hlt : ((entries s).filter (fun e => !decide (e.1 = k))).length < (entries s).length := by
      apply List.length_filter_lt_length_iff_exists.2
      exact ⟨(k, v), hm, by simp⟩
    have := h.2
    simp only [List.length_cons, length_entries] at hlen hlt
    rw [h3]
    omega

theorem Good.step {s : LRUCache K V} (h : Good s) (o : Op K V) :
    ∃ s1, step s o = some s1 ∧ Good s1 ∧ s1.m_capacity = s.m_capacity := by
  cases o with
  | put k v =>
    obtain ⟨s1, h1, h2, h3, _⟩ := h.put k v
    exact ⟨s1, by simp [LRUCache.step, h1], h2, h3⟩
  | get k =>
    obtain ⟨s1, r, h1, h2, h3⟩ := h.get k
    exact ⟨s1, by simp [LRUCache.step, h1], h2, h3⟩

theorem Good.run {s : LRUCache K V} (h : Good s) (ops : List (Op K V)) :
    ∃ s1, run s ops = some s1 ∧ Good s1 ∧ s1.m_capacity = s.m_capacity := by
  induction ops generalizing s with
  | nil => exact ⟨s, rfl, h, rfl⟩
  | cons o os ih =>
    obtain ⟨s1, h1, h2, h3⟩ := h.step o
    obtain ⟨s2, h4, h5, h6⟩ := ih h2
    exact ⟨s2, by simp [LRUCache.run, h1, h4], h5, by rw [h6, h3]⟩

theorem Reachable.lru_good {cap : Int} {s : LRUCache K V} (h : Reachable cap s) :
    Good s ∧ s.m_capacity = toSizeT cap := by
  obtain ⟨ops, ho⟩ := h
  obtain ⟨s1, h1, h2, h3⟩ := (lru_good_new cap).run ops
  rw [h1] at ho
  cases ho
  exact ⟨h2, h3⟩

end LRUCache

theorem toSizeT_natCast_le (c : Nat) : toSizeT (c : Int) ≤ c := by
  unfold toSizeT
  omega

theorem toSizeT_natCast (c : Nat) (h : c < 2 ^ 64) : toSizeT (c : Int) = c := by
  unfold toSizeT
  omega

/-- C1. For every capacity `c ≥ 0` and every sequence of `put`/`get` calls on a fresh
`LRUCache` of capacity `c`, every call returns, and after each call (after every
prefix of the sequence) the list holds at most `c` entries and the map at most `c`
keys. -/
theorem C1_lru_capacity_invariant {K V : Type} [DecidableEq K] (c : Nat)
    (ops : List (Op K V)) (n : Nat) :
    ∃ s : LRUCache K V, LRUCache.run (LRUCache.new (c : Int)) (ops.take n) = some s ∧
      s.m_list.length ≤ c ∧ UMap.size s.m_map ≤ c := by
  obtain ⟨s, h1, h2, h3⟩ := (LRUCache.lru_good_new (K := K) (V := V) (c : Int)).run (ops.take n)
  refine ⟨s, h1, ?_, ?_⟩
  · have := h2.2
    have hc := toSizeT_natCast_le c
    simp only [LRUCache.new] at h3
    omega
  · have := h2.2
    have hc := toSizeT_natCast_le c
    simp only [LRUCache.new] at h3
    rw [h2.1.size_eq]
    omega

namespace LRUCache

variable {K V : Type} [DecidableEq K]

theorem filter_key_of_not_mem (es : List (K × V)) (k : K) (h : k ∉ es.map Prod.fst) :
    es.filter (fun e => !decide (e.1 = k)) = es := by
  rw [List.filter_eq_self]
  intro e he
  have : e.1 ≠ k := fun x => h (List.mem_map.2 ⟨e, he, x⟩)
  simpa using this

theorem putEntries_room (cap : Nat) (es : List (K × V)) (k : K) (v : V)
    (hk : k ∉ es.map Prod.fst) (hl : es.length < cap) :
    putEntries cap es k v = (k, v) :: es := by
  unfold putEntries
  rw [filter_key_of_not_mem es k hk]
  have : ¬ ((k, v) :: es).length > cap := by simp only [List.length_cons]; omega
  rw [if_neg this]

theorem putEntries_full (cap : Nat) (es : List (K × V)) (k : K) (v : V)
    (hk : k ∉ es.map Prod.fst) (hl : es.length = cap) :
    putEntries cap es k v = ((k, v) :: es).dropLast := by
  unfold putEntries
  rw [filter_key_of_not_mem es k hk]
  have : ((k, v) :: es).length > cap := by simp only [List.length_cons]; omega
  rw [if_pos this]

theorem WF.lookup_eq_some_iff {s : LRUCache K V} (h : WF s) (k : K) (v : V) :
    lookup s k = some v ↔ (k, v) ∈ entries s := by
  unfold lookup
  constructor
  · intro hl
    cases hf : UMap.find s.m_map k with
    | none => simp [hf] at hl
    | some it =>
      obtain ⟨v', hv'⟩ := (h.find_some_iff k it).1 hf
      have hd := DList.deref_of_mem _ _ _ h.addrs_nodup hv'
      simp [hf, hd] at hl
      subst hl
      exact List.mem_map.2 ⟨_, hv', rfl⟩
  · intro hm
    obtain ⟨n, hn, he⟩ := List.mem_map.1 hm
    obtain ⟨it, k', v'⟩ := n
    simp only [Prod.mk.injEq] at he
    obtain ⟨rfl, rfl⟩ := he
    have hf := (h.find_some_iff k' it).2 ⟨v', hn⟩
    have hd := DList.deref_of_mem _ _ _ h.addrs_nodup hn
    simp [hf, hd]

theorem WF.entries_keys_nodup {s : LRUCache K V} (h : WF s) :
    ((entries s).map Prod.fst).Nodup := by
  have := h.keys_nodup
  simpa [entries, DList.items, List.map_map, Function.comp_def] using this

/-- Putting pairs with distinct, absent keys into a cache with enough room stacks
them on the front of the entry list. -/
theorem Good.run_puts {s : LRUCache K V} (h : Good s) (kvs : List (K × V))
    (hnd : (kvs.map Prod.fst).Nodup)
    (hdis : ∀ k ∈ kvs.map Prod.fst, k ∉ (entries s).map Prod.fst)
    (hroom : (entries s).length + kvs.length ≤ s.m_capacity) :
    ∃ s1, LRUCache.run s (puts kvs) = some s1 ∧ Good s1 ∧ s1.m_capacity = s.m_capacity ∧
      entries s1 = kvs.reverse ++ entries s := by
  induction kvs generalizing s with
  | nil => exact ⟨s, rfl, h, rfl, by simp⟩
  | cons p kvs ih =>
    obtain ⟨k, v⟩ := p
    simp only [List.map_cons, List.nodup_cons, List.length_cons] at hnd hroom
    have hk : k ∉ (entries s).map Prod.fst := hdis k (by simp)
    obtain ⟨s1, h1, h2, h3, h4⟩ := h.put k v
    rw [putEntries_room _ _ _ _ hk (by omega)] at h4
    have hdis1 : ∀ k' ∈ kvs.map Prod.fst, k' ∉ (entries s1).map Prod.fst := by
      intro k' hk'
      rw [h4]
      simp only [List.map_cons, List.mem_cons, not_or]
      refine ⟨?_, hdis k' (by simp [List.mem_map.1 hk'])⟩
      rintro rfl
      exact hnd.1 hk'
    have hroom1 : (entries s1).length + kvs.length ≤ s1.m_capacity := by
      rw [h4, h3]
      simp only [List.length_cons]
      omega
    obtain ⟨s2, h5, h6, h7, h8⟩ := ih h2 hnd.2 hdis1 hroom1
    refine ⟨s2, ?_, h6, by rw [h7, h3], ?_⟩
    · simp only [puts, List.map_cons, LRUCache.run, LRUCache.step, h1, Option.map_some']
      exact h5
    · rw [h8, h4]
      simp

end LRUCache

/-- C3. LRU recency law: for pairwise distinct keys `k1, k2, rest.., kn1` (so
`n = rest.length + 2 ≥ 2`, a value that fits `std::size_t` as every `int` does), on a
fresh cache of capacity `n`: after the `n` puts in
order, `get k1` returns `(v1, true)`, then `put kn1` evicts `k2`: `get k2` reports not
found and leaves the cache unchanged, while `k1`, the keys of `rest` and `kn1` are all
found with the values they were put with. -/
theorem C3_lru_recency_law {K V : Type} [DecidableEq K] (k1 k2 kn1 : K) (v1 v2 vn1 : V)
    (rest : List (K × V))
    (hnd : (((k1, v1) :: (k2, v2) :: rest ++ [(kn1, vn1)]).map Prod.fst).Nodup)
    (hfit : rest.length + 2 < 2 ^ 64) :
    ∃ s1 s2 s3 : LRUCache K V,
      LRUCache.run (LRUCache.new ((rest.length + 2 : Nat) : Int))
        (LRUCache.puts ((k1, v1) :: (k2, v2) :: rest)) = some s1 ∧
      LRUCache.get s1 k1 = some (s2, true, some v1) ∧
      LRUCache.put s2 kn1 vn1 = some (s3, true) ∧
      LRUCache.get s3 k2 = some (s3, false, none) ∧
      ∀ p ∈ (k1, v1) :: rest ++ [(kn1, vn1)],
        ∃ s4, LRUCache.get s3 p.1 = some (s4, true, some p.2) := by
  have hcap : (LRUCache.new ((rest.length + 2 : Nat) : Int) : LRUCache K V).m_capacity
      = rest.length + 2 := by
    simp only [LRUCache.new]
    exact toSizeT_natCast _ (by omega)
  simp only [List.map_cons, List.map_append, List.map_nil, List.nodup_cons, List.mem_cons,
    List.mem_append, List.mem_singleton, not_or, List.cons_append, List.nodup_append,
    List.not_mem_nil, or_false, not_false_eq_true, and_true, List.nodup_nil,
    List.disjoint_singleton] at hnd
  obtain ⟨⟨h12, h1r, h1n⟩, ⟨h2r, h2n⟩, hrn, -, hdisj⟩ := hnd
  have hg0 := LRUCache.lru_good_new (K := K) (V := V) ((rest.length + 2 : Nat) : Int)
  obtain ⟨s1, r1, g1, c1, e1⟩ := hg0.run_puts ((k1, v1) :: (k2, v2) :: rest)
    (by simp [h12, h1r, h2r, hrn])
    (by simp [LRUCache.new, LRUCache.entries, DList.items])
    (by rw [hcap]; simp [LRUCache.new, LRUCache.entries, DList.items])
  have e1' : LRUCache.entries s1 = rest.reverse ++ [(k2, v2), (k1, v1)] := by
    rw [e1]
    simp [LRUCache.new, LRUCache.entries, DList.items]
  obtain ⟨s2, r2, w2, c2, e2⟩ := g1.1.lru_get_hit k1 v1 (by rw [e1']; simp)
  have hfr : rest.reverse.filter (fun e => !decide (e.1 = k1)) = rest.reverse :=
    LRUCache.filter_key_of_not_mem _ _ (by simpa using h1r)
  have e2' : LRUCache.entries s2 = (k1, v1) :: (rest.reverse ++ [(k2, v2)]) := by
    rw [e2, e1']
    have : ¬ k2 = k1 := fun e => h12 e.symm
    simp [List.filter_append, hfr, List.filter_cons, this]
  have g2 : LRUCache.Good s2 := by
    refine ⟨w2, ?_⟩
    have := congrArg List.length e2'
    simp only [LRUCache.length_entries, List.length_cons, List.length_append,
      List.length_reverse, List.length_singleton, List.length_nil] at this
    rw [c2, c1, hcap]
    omega
  obtain ⟨s3, r3, g3, c3, e3⟩ := g2.put kn1 vn1
  have hkn : kn1 ∉ (LRUCache.entries s2).map Prod.fst := by
    rw [e2']
    simp only [List.map_cons, List.map_append, List.map_reverse, List.map_nil, List.mem_cons,
      List.mem_append, List.mem_reverse, List.mem_singleton, not_or, List.not_mem_nil,
      or_false]
    exact ⟨fun e => h1n e.symm, hdisj, fun e => h2n e.symm⟩
  rw [LRUCache.putEntries_full _ _ _ _ hkn (by
    rw [e2', c2, c1, hcap]; simp), e2'] at e3
  have e3' : LRUCache.entries s3 = (kn1, vn1) :: (k1, v1) :: rest.reverse := by
    rw [e3]
    have : (kn1, vn1) :: (k1, v1) :: (rest.reverse ++ [(k2, v2)])
        = ((kn1, vn1) :: (k1, v1) :: rest.reverse) ++ [(k2, v2)] := by simp
    rw [this, List.dropLast_concat]
  refine ⟨s1, s2, s3, r1, r2, r3, ?_, ?_⟩
  · apply LRUCache.get_miss
    rw [g3.1.find_none_iff, e3']
    simp only [List.map_cons, List.map_reverse, List.mem_cons, List.mem_reverse, not_or]
    exact ⟨h2n, fun e => h12 e.symm, h2r⟩
  · intro p hp
    have hm : (p.1, p.2) ∈ LRUCache.entries s3 := by
      rw [e3']
      simp only [List.cons_append, List.mem_cons, List.mem_append, List.mem_singleton,
        List.not_mem_nil, or_false] at hp
      simp only [List.mem_cons, List.mem_reverse]
      rcases hp with hp | hp | hp
      · exact Or.inr (Or.inl hp)
      · exact Or.inr (Or.inr hp)
      · exact Or.inl hp
    obtain ⟨s4, r4, -⟩ := g3.1.lru_get_hit p.1 p.2 hm
    exact ⟨s4, r4⟩

/-- Witness for C3: the scenario of `testLRU` (capacity 3, keys 1, 2, 3, 4). -/
theorem C3_lru_recency_law_witness :
    ∃ s1 s2 s3 : LRUCache Nat String,
      LRUCache.run (LRUCache.new 3) [Op.put 1 "r", Op.put 2 "a", Op.put 3 "y"] = some s1 ∧
      LRUCache.get s1 1 = some (s2, true, some "r") ∧
      LRUCache.put s2 4 "'" = some (s3, true) ∧
      LRUCache.get s3 2 = some (s3, false, none) ∧
      ∀ p ∈ [(1, "r"), (3, "y"), (4, "'")],
        ∃ s4, LRUCache.get s3 p.1 = some (s4, true, some p.2) :=
  C3_lru_recency_law 1 2 4 "r" "a" "'" [(3, "y")] (by decide) (by decide)

namespace LRUCache

variable {K V : Type} [DecidableEq K]

theorem filter_key_split (pre post : List (K × V)) (k : K) (v : V)
    (hnd : ((pre ++ (k, v) :: post).map Prod.fst).Nodup) :
    (pre ++ (k, v) :: post).filter (fun e => !decide (e.1 = k)) = pre ++ post := by
  simp only [List.map_append, List.map_cons, List.nodup_append, List.nodup_cons] at hnd
  obtain ⟨-, ⟨hk, -⟩, hdis⟩ := hnd
  have h1 : k ∉ pre.map Prod.fst := fun hm => hdis hm (by simp)
  rw [List.filter_append, filter_key_of_not_mem pre k h1]
  simp [List.filter_cons, filter_key_of_not_mem post k hk]

theorem WF.keys_eq_entries {s : LRUCache K V} (h : WF s) (k : K) :
    k ∈ UMap.keys s.m_map ↔ k ∈ (entries s).map Prod.fst := by
  rw [h.map_keys_perm.mem_iff]
  simp [entries, DList.items, List.map_map, Function.comp_def]

end LRUCache

/-- C8. In a reachable `LRUCache` state holding `k` with value `v`, `get k` returns
`(v, true)`; the entry `(k, v)` moves from its place in the sequence to the head while
all other entries keep their values and relative order; the keys of the sequence and
of the map and the number of entries are unchanged. -/
theorem C8_lru_get_hit_refreshes_recency {K V : Type} [DecidableEq K] (cap : Int)
    (s : LRUCache K V) (k : K) (v : V) (hr : LRUCache.Reachable cap s)
    (hp : LRUCache.lookup s k = some v) :
    ∃ (s1 : LRUCache K V) (pre post : List (K × V)),
      LRUCache.get s k = some (s1, true, some v) ∧
      LRUCache.entries s = pre ++ (k, v) :: post ∧
      LRUCache.entries s1 = (k, v) :: (pre ++ post) ∧
      LRUCache.lookup s1 k = some v ∧
      (∀ k', k' ∈ (LRUCache.entries s1).map Prod.fst ↔ k' ∈ (LRUCache.entries s).map Prod.fst) ∧
      (∀ k', k' ∈ UMap.keys s1.m_map ↔ k' ∈ UMap.keys s.m_map) ∧
      s1.m_list.length = s.m_list.length ∧
      UMap.size s1.m_map = UMap.size s.m_map := by
  have hw := hr.lru_good.1.1
  have hm := (hw.lookup_eq_some_iff k v).1 hp
  obtain ⟨pre, post, hsplit⟩ := List.append_of_mem hm
  obtain ⟨s1, h1, w1, -, e1⟩ := hw.lru_get_hit k v hm
  have hnd := hw.entries_keys_nodup
  rw [hsplit] at hnd
  have e1' : LRUCache.entries s1 = (k, v) :: (pre ++ post) := by
    rw [e1, hsplit, LRUCache.filter_key_split pre post k v hnd]
  have hkeys : ∀ k', k' ∈ (LRUCache.entries s1).map Prod.fst ↔
      k' ∈ (LRUCache.entries s).map Prod.fst := by
    intro k'
    rw [e1', hsplit]
    simp only [List.map_cons, List.map_append, List.mem_cons, List.mem_append]
    tauto
  have hlen : s1.m_list.length = s.m_list.length := by
    rw [← LRUCache.length_entries, ← LRUCache.length_entries, e1', hsplit]
    simp only [List.length_cons, List.length_append]
    omega
  refine ⟨s1, pre, post, h1, hsplit, e1', ?_, hkeys, ?_, hlen, ?_⟩
  · rw [w1.lookup_eq_some_iff, e1']
    simp
  · intro k'
    rw [w1.keys_eq_entries, hw.keys_eq_entries]
    exact hkeys k'
  · rw [w1.size_eq, hw.size_eq, hlen]

/-- Witness for C8: after `put 1, put 2, put 3` on a capacity-3 cache, key 1 is present
with value "r". -/
theorem C8_lru_get_hit_refreshes_recency_witness :
    ∃ (s1 : LRUCache Nat String) (pre post : List (Nat × String)),
      LRUCache.get ⟨3, [(2, 3, "y"), (1, 2, "a"), (0, 1, "r")], [(3, 2), (2, 1), (1, 0)], 3⟩ 1
        = some (s1, true, some "r") ∧
      LRUCache.entries (⟨3, [(2, 3, "y"), (1, 2, "a"), (0, 1, "r")],
        [(3, 2), (2, 1), (1, 0)], 3⟩ : LRUCache Nat String) = pre ++ (1, "r") :: post ∧
      LRUCache.entries s1 = (1, "r") :: (pre ++ post) ∧
      LRUCache.lookup s1 1 = some "r" ∧
      (∀ k', k' ∈ (LRUCache.entries s1).map Prod.fst ↔
        k' ∈ (LRUCache.entries (⟨3, [(2, 3, "y"), (1, 2, "a"), (0, 1, "r")],
          [(3, 2), (2, 1), (1, 0)], 3⟩ : LRUCache Nat String)).map Prod.fst) ∧
      (∀ k', k' ∈ UMap.keys s1.m_map ↔ k' ∈ UMap.keys [(3, 2), (2, 1), (1, 0)]) ∧
      s1.m_list.length = 3 ∧
      UMap.size s1.m_map = 3 :=
  C8_lru_get_hit_refreshes_recency 3
    ⟨3, [(2, 3, "y"), (1, 2, "a"), (0, 1, "r")], [(3, 2), (2, 1), (1, 0)], 3⟩ 1 "r"
    ⟨[Op.put 1 "r", Op.put 2 "a", Op.put 3 "y"], by decide⟩ (by decide)

/-- C10. For an `LRUCache` of capacity 0, after any sequence of calls the list and the
map are both empty, every `put` returns `true` and leaves both empty again (the entry
it inserted is the one it evicts), and every `get` reports not found without writing
a value. -/
theorem C10_lru_capacity_zero {K V : Type} [DecidableEq K] (ops : List (Op K V)) :
    ∃ s : LRUCache K V, LRUCache.run (LRUCache.new 0) ops = some s ∧
      s.m_list = [] ∧ s.m_map = [] ∧
      (∀ k v, ∃ s1, LRUCache.put s k v = some (s1, true) ∧ s1.m_list = [] ∧ s1.m_map = [] ∧
        DList.back (DList.push_front s.m_list s.fresh (k, v)) = some (k, v)) ∧
      (∀ k, LRUCache.get s k = some (s, false, none)) := by
  have hempty : ∀ t : LRUCache K V, LRUCache.Good t → t.m_capacity = 0 →
      t.m_list = [] ∧ t.m_map = [] := by
    intro t ht hc
    have hl : t.m_list = [] := by
      have := ht.2
      rw [hc] at this
      exact List.length_eq_zero.1 (by omega)
    have hm := ht.1.map_perm
    rw [hl] at hm
    exact ⟨hl, by simpa [LRUCache.listIndex] using hm⟩
  obtain ⟨s, h1, h2, h3⟩ := (LRUCache.lru_good_new (K := K) (V := V) 0).run ops
  have hc : s.m_capacity = 0 := by
    rw [h3]
    simp [LRUCache.new, toSizeT]
  obtain ⟨hl, hm⟩ := hempty s h2 hc
  refine ⟨s, h1, hl, hm, ?_, ?_⟩
  · intro k v
    obtain ⟨s1, p1, g1, c1, -⟩ := h2.put k v
    obtain ⟨hl1, hm1⟩ := hempty s1 g1 (by rw [c1, hc])
    exact ⟨s1, p1, hl1, hm1, by simp [hl, DList.back, DList.push_front]⟩
  · intro k
    apply LRUCache.get_miss
    simp [hm, UMap.find]

/-! ## LFUCache: representation invariant -/

namespace FreqTable

variable {K V : Type}

theorem link_eq (ft : FreqTable K V) (g addr : Nat) (x : Node K V) :
    link ft g addr x = (g, (addr, x) :: UMap.getD ft g []) :: UMap.erase ft g := by
  unfold link
  rw [UMap.assign_index, UMap.getD_index]
  rfl

theorem nodes_link (ft : FreqTable K V) (g addr : Nat) (x : Node K V)
    (hn : (UMap.keys ft).Nodup) : (nodes (link ft g addr x)).Perm ((addr, x) :: nodes ft) := by
  rw [link_eq, nodes_cons]
  exact List.Perm.cons _ (nodes_perm_getD ft g hn).symm

theorem nodes_setBucket (ft : FreqTable K V) (f : Nat) (l : DList (Node K V)) :
    nodes (setBucket ft f l) = l ++ nodes (UMap.erase ft f) := by
  unfold setBucket
  split
  · rename_i h
    rw [List.length_eq_zero.1 h]
    simp
  · exact nodes_assign ft f l

theorem mem_setBucket (ft : FreqTable K V) (f : Nat) (l : DList (Node K V))
    (p : Nat × DList (Node K V)) :
    p ∈ setBucket ft f l ↔ (p = (f, l) ∧ l ≠ []) ∨ (p ∈ ft ∧ p.1 ≠ f) := by
  unfold setBucket
  split
  · rename_i h
    have hl := List.length_eq_zero.1 h
    simp [UMap.mem_erase, hl]
  · rename_i h
    have hl : l ≠ [] := fun e => h (by simp [e])
    simp [UMap.mem_assign, hl]

theorem mem_link (ft : FreqTable K V) (g addr : Nat) (x : Node K V)
    (p : Nat × DList (Node K V)) :
    p ∈ link ft g addr x ↔ p = (g, (addr, x) :: UMap.getD ft g []) ∨ (p ∈ ft ∧ p.1 ≠ g) := by
  rw [link_eq]
  simp [UMap.mem_erase]

theorem keys_nodup_setBucket (ft : FreqTable K V) (f : Nat) (l : DList (Node K V))
    (hn : (UMap.keys ft).Nodup) : (UMap.keys (setBucket ft f l)).Nodup := by
  unfold setBucket
  split
  · exact UMap.nodup_keys_erase ft f hn
  · exact UMap.nodup_keys_assign ft f l hn

theorem keys_nodup_link (ft : FreqTable K V) (g addr : Nat) (x : Node K V)
    (hn : (UMap.keys ft).Nodup) : (UMap.keys (link ft g addr x)).Nodup := by
  have := UMap.nodup_keys_assign ft g ((addr, x) :: UMap.getD ft g []) hn
  rw [link_eq]
  exact this

theorem mem_keys_setBucket (ft : FreqTable K V) (f : Nat) (l : DList (Node K V)) (g : Nat) :
    g ∈ UMap.keys (setBucket ft f l) ↔ (g = f ∧ l ≠ []) ∨ (g ∈ UMap.keys ft ∧ g ≠ f) := by
  unfold setBucket
  split
  · rename_i h
    have hl := List.length_eq_zero.1 h
    simp [UMap.keys_erase, List.mem_filter, hl]
  · rename_i h
    have hl : l ≠ [] := fun e => h (by simp [e])
    simp [UMap.keys_assign, List.mem_filter, hl]

theorem mem_keys_link (ft : FreqTable K V) (g addr : Nat) (x : Node K V) (f : Nat) :
    f ∈ UMap.keys (link ft g addr x) ↔ f = g ∨ f ∈ UMap.keys ft := by
  have := UMap.keys_assign ft g ((addr, x) :: UMap.getD ft g [])
  rw [link_eq]
  simp only [UMap.assign] at this
  rw [this]
  simp only [List.mem_cons, List.mem_filter]
  by_cases h : f = g
  · simp [h]
  · simp [h]

theorem find_setBucket (ft : FreqTable K V) (f : Nat) (l : DList (Node K V)) (g : Nat) :
    UMap.find (setBucket ft f l) g
      = if g = f then (if l.length = 0 then none else some l) else UMap.find ft g := by
  unfold setBucket
  split
  · rw [UMap.find_erase]
  · rw [UMap.find_assign]
    by_cases h : f = g
    · simp [h]
    · have h2 : ¬ g = f := fun e => h e.symm
      simp [h, h2]

theorem keyIndex_filter (ns : DList (Node K V)) [DecidableEq K] (k : K) :
    (ns.map (fun n => (n.2.key, n.1))).filter (fun p => !decide (p.1 = k))
      = (ns.filter (fun n => !decide (n.2.key = k))).map (fun n => (n.2.key, n.1)) := by
  simp [List.filter_map, Function.comp_def]

end FreqTable

namespace LFUCache

variable {K V : Type} [DecidableEq K]

/-- A table is well-formed as soon as its frequencies and lists are, and its nodes are
a rearrangement of a list of nodes that is. -/
theorem TableWF.of_nodes_perm {ft : FreqTable K V} {kt : UMap K Nat} {fresh : Nat}
    (ns : DList (Node K V)) (hp : (FreqTable.nodes ft).Perm ns)
    (h1 : (UMap.keys ft).Nodup) (h2 : (DList.addrs ns).Nodup)
    (h3 : (ns.map (fun n => n.2.key)).Nodup) (h4 : ∀ n ∈ ns, n.1 < fresh)
    (h5 : ∀ f l, (f, l) ∈ ft → l ≠ [] ∧ 1 ≤ f ∧ ∀ n ∈ l, n.2.freq = f)
    (h6 : kt.Perm (ns.map (fun n => (n.2.key, n.1)))) : TableWF ft kt fresh := by
  constructor
  · exact h1
  · exact ((hp.map Prod.fst).nodup_iff).2 h2
  · exact ((hp.map _).nodup_iff).2 h3
  · intro n hn
    exact h4 n (hp.mem_iff.1 hn)
  · exact h5
  · exact h6.trans (hp.map _).symm

theorem TableWF.kt_keys_perm {ft : FreqTable K V} {kt : UMap K Nat} {fresh : Nat}
    (h : TableWF ft kt fresh) :
    (UMap.keys kt).Perm ((FreqTable.nodes ft).map (fun n => n.2.key)) := by
  have := h.table_perm.map Prod.fst
  simpa [FreqTable.keyIndex, List.map_map, Function.comp_def, UMap.keys] using this

theorem TableWF.kt_keys_nodup {ft : FreqTable K V} {kt : UMap K Nat} {fresh : Nat}
    (h : TableWF ft kt fresh) : (UMap.keys kt).Nodup :=
  h.kt_keys_perm.nodup_iff.2 h.keys_nodup

theorem TableWF.find_bucket {ft : FreqTable K V} {kt : UMap K Nat} {fresh : Nat}
    (h : TableWF ft kt fresh) {f : Nat} {l : DList (Node K V)} (hb : (f, l) ∈ ft) :
    UMap.find ft f = some l :=
  UMap.find_of_mem ft f l h.freqs_nodup hb

theorem TableWF.addr_eq_iff_key_eq {ft : FreqTable K V} {kt : UMap K Nat} {fresh : Nat}
    (h : TableWF ft kt fresh) {it : Nat} {n : Node K V} (hm : (it, n) ∈ FreqTable.nodes ft)
    (m : Nat × Node K V) (hn : m ∈ FreqTable.nodes ft) : m.1 = it ↔ m.2.key = n.key := by
  constructor
  · intro e
    have := List.inj_on_of_nodup_map h.addrs_nodup hn hm e
    rw [this]
  · intro e
    have := List.inj_on_of_nodup_map h.keys_nodup hn hm e
    rw [this]

/-- Removing the node at `it` from its list removes from the nodes of the table
exactly the node carrying its key. -/
theorem TableWF.nodes_unlink {ft : FreqTable K V} {kt : UMap K Nat} {fresh : Nat}
    (h : TableWF ft kt fresh) {f : Nat} {l : DList (Node K V)} {it : Nat} {n : Node K V}
    (hb : (f, l) ∈ ft) (hn : (it, n) ∈ l) :
    (FreqTable.nodes (FreqTable.setBucket ft f (DList.remove l it))).Perm
      ((FreqTable.nodes ft).filter (fun m => !decide (m.2.key = n.key))) := by
  have hg := UMap.getD_of_find [] (h.find_bucket hb)
  have hperm := FreqTable.nodes_perm_getD ft f h.freqs_nodup
  rw [hg] at hperm
  have hnd : (DList.addrs (l ++ FreqTable.nodes (UMap.erase ft f))).Nodup :=
    ((hperm.map Prod.fst).nodup_iff).1 h.addrs_nodup
  simp only [DList.addrs, List.map_append] at hnd
  obtain ⟨hl, -, hdis⟩ := List.nodup_append.1 hnd
  have hit : it ∈ l.map Prod.fst := List.mem_map.2 ⟨_, hn, rfl⟩
  have hE : (FreqTable.nodes (UMap.erase ft f)).filter (fun m => !decide (m.1 = it))
      = FreqTable.nodes (UMap.erase ft f) := by
    rw [List.filter_eq_self]
    intro m hm
    have : m.1 ≠ it := fun e => hdis hit (List.mem_map.2 ⟨m, hm, e⟩)
    simpa using this
  have hmem : (it, n) ∈ FreqTable.nodes ft := (FreqTable.mem_nodes ft _).2 ⟨f, l, hb, hn⟩
  have hfilter : (FreqTable.nodes ft).filter (fun m => !decide (m.1 = it))
      = (FreqTable.nodes ft).filter (fun m => !decide (m.2.key = n.key)) := by
    apply List.filter_congr
    intro m hm
    have := h.addr_eq_iff_key_eq hmem m hm
    by_cases e : m.1 = it
    · simp [e, this.1 e]
    · have e2 : ¬ m.2.key = n.key := fun x => e (this.2 x)
      simp [e, e2]
  rw [FreqTable.nodes_setBucket, DList.remove_eq_filter l it hl, ← hfilter]
  have := (hperm.filter (fun m => !decide (m.1 = it))).symm
  rw [List.filter_append, hE] at this
  exact this

theorem TableWF.unlink {ft : FreqTable K V} {kt : UMap K Nat} {fresh : Nat}
    (h : TableWF ft kt fresh) {f : Nat} {l : DList (Node K V)} {it : Nat} {n : Node K V}
    (hb : (f, l) ∈ ft) (hn : (it, n) ∈ l) :
    TableWF (FreqTable.setBucket ft f (DList.remove l it)) (UMap.erase kt n.key) fresh := by
  have hsub : ((FreqTable.nodes ft).filter (fun m => !decide (m.2.key = n.key))).Sublist
      (FreqTable.nodes ft) := List.filter_sublist _
  have hl : (DList.addrs l).Nodup := by
    have hperm := FreqTable.nodes_perm_getD ft f h.freqs_nodup
    rw [UMap.getD_of_find [] (h.find_bucket hb)] at hperm
    have := ((hperm.map Prod.fst).nodup_iff).1 h.addrs_nodup
    simp only [List.map_append] at this
    exact (List.nodup_append.1 this).1
  apply TableWF.of_nodes_perm _ (h.nodes_unlink hb hn)
  · exact FreqTable.keys_nodup_setBucket ft f _ h.freqs_nodup
  · exact h.addrs_nodup.sublist (hsub.map _)
  · exact h.keys_nodup.sublist (hsub.map _)
  · intro m hm
    exact h.addrs_lt m (hsub.subset hm)
  · intro f' l' hm
    rcases (FreqTable.mem_setBucket ft f _ _).1 hm with ⟨e, hne⟩ | ⟨hm', -⟩
    · cases e
      refine ⟨hne, (h.bucket_ok f l hb).2.1, ?_⟩
      intro m hm2
      rw [DList.remove_eq_filter l it hl] at hm2
      exact (h.bucket_ok f l hb).2.2 m (List.mem_filter.1 hm2).1
    · exact h.bucket_ok f' l' hm'
  · have := h.table_perm.filter (fun p => !decide (p.1 = n.key))
    rw [FreqTable.keyIndex, FreqTable.keyIndex_filter] at this
    exact this

theorem TableWF.link {ft : FreqTable K V} {kt : UMap K Nat} {fresh : Nat}
    (h : TableWF ft kt fresh) (k : K) (v : V) (g : Nat) (hk : k ∉ UMap.keys kt) (hg : 1 ≤ g) :
    TableWF (FreqTable.link ft g fresh { key := k, value := v, freq := g })
      (UMap.assign kt k fresh) (fresh + 1) := by
  apply TableWF.of_nodes_perm _ (FreqTable.nodes_link ft g fresh _ h.freqs_nodup)
  · exact FreqTable.keys_nodup_link ft g fresh _ h.freqs_nodup
  · simp only [DList.addrs, List.map_cons, List.nodup_cons]
    refine ⟨?_, h.addrs_nodup⟩
    intro hm
    obtain ⟨m, hm1, hm2⟩ := List.mem_map.1 hm
    have := h.addrs_lt m hm1
    omega
  · simp only [List.map_cons, List.nodup_cons]
    refine ⟨?_, h.keys_nodup⟩
    intro hm
    exact hk (h.kt_keys_perm.mem_iff.2 hm)
  · intro m hm
    rcases List.mem_cons.1 hm with rfl | hm
    · simp
    · have := h.addrs_lt m hm
      omega
  · intro f' l' hm
    rcases (FreqTable.mem_link ft g fresh _ _).1 hm with e | ⟨hm', -⟩
    · cases e
      refine ⟨by simp, hg, ?_⟩
      intro m hm2
      rcases List.mem_cons.1 hm2 with rfl | hm2
      · rfl
      · cases hf : UMap.find ft g with
        | none => simp [UMap.getD, hf] at hm2
        | some l0 =>
          rw [UMap.getD_of_find [] hf] at hm2
          exact (h.bucket_ok g l0 (UMap.mem_of_find _ _ _ hf)).2.2 m hm2
    · exact h.bucket_ok f' l' hm'
  · simp only [UMap.assign, UMap.erase_of_not_mem kt k hk, List.map_cons]
    exact List.Perm.cons _ h.table_perm

end LFUCache

/-! ## LFUCache: the calls on well-formed states -/

namespace LFUCache

variable {K V : Type} [DecidableEq K]

theorem relink_eq (s : LFUCache K V) (k : K) (it f : Nat) (l : DList (Node K V)) (v : V)
    (hf : UMap.find s.m_freqTable f = some l) (hit : it ∈ DList.addrs l) :
    relink s k it f v = some (relinked s k it f l v) := by
  have hd : ∃ n, DList.deref l it = some n := by
    cases h : DList.deref l it with
    | none => exact absurd hit ((DList.deref_eq_none_iff l it).1 h)
    | some n => exact ⟨n, rfl⟩
  obtain ⟨n, hd⟩ := hd
  unfold relink
  simp only [UMap.index_of_find [] hf, UMap.getD_of_find [] hf, DList.erase, hd,
    UMap.getD_assign_self]
  unfold relinked FreqTable.link FreqTable.setBucket
  by_cases he : (DList.remove l it).length = 0
  · simp [he, UMap.erase_assign_self]
  · simp [he]

/-- The node the key table resolves a stored key to. -/
theorem TableWF.resolve {ft : FreqTable K V} {kt : UMap K Nat} {fresh : Nat}
    (h : TableWF ft kt fresh) {k : K} {it : Nat} (hf : UMap.find kt k = some it) :
    ∃ f l n, (f, l) ∈ ft ∧ (it, n) ∈ l ∧ n.key = k ∧ n.freq = f ∧
      FreqTable.deref ft it = some n := by
  have hm := (h.table_perm.mem_iff).1 (UMap.mem_of_find _ _ _ hf)
  obtain ⟨m, hm1, hm2⟩ := List.mem_map.1 hm
  obtain ⟨a, n⟩ := m
  simp only [Prod.mk.injEq] at hm2
  obtain ⟨hk, rfl⟩ := hm2
  obtain ⟨f, l, hb, hn⟩ := (FreqTable.mem_nodes ft _).1 hm1
  refine ⟨f, l, n, hb, hn, hk, (h.bucket_ok f l hb).2.2 _ hn, ?_⟩
  rw [FreqTable.deref_eq]
  exact DList.deref_of_mem _ _ _ h.addrs_nodup hm1

theorem TableWF.find_of_node {ft : FreqTable K V} {kt : UMap K Nat} {fresh : Nat}
    (h : TableWF ft kt fresh) {it : Nat} {n : Node K V} (hm : (it, n) ∈ FreqTable.nodes ft) :
    UMap.find kt n.key = some it := by
  apply UMap.find_of_mem _ _ _ h.kt_keys_nodup
  exact (h.table_perm.mem_iff).2 (List.mem_map.2 ⟨_, hm, rfl⟩)

theorem minFreqOK_relinked {ft : FreqTable K V} {mf f : Nat} {l1 : DList (Node K V)}
    (addr : Nat) (x : Node K V) (hm : MinFreqOK ft mf) (hf : f ∈ UMap.keys ft) :
    MinFreqOK (FreqTable.link (FreqTable.setBucket ft f l1) (f + 1) addr x)
      (if l1.length = 0 ∧ mf = f then mf + 1 else mf) := by
  have hle := hm.2 f hf
  constructor
  · rw [FreqTable.mem_keys_link, FreqTable.mem_keys_setBucket]
    by_cases hc : l1.length = 0 ∧ mf = f
    · rw [if_pos hc]
      left
      omega
    · rw [if_neg hc]
      right
      by_cases e : mf = f
      · left
        refine ⟨e, fun hl => hc ⟨by simp [hl], e⟩⟩
      · right
        exact ⟨hm.1, e⟩
  · intro g hg
    rw [FreqTable.mem_keys_link, FreqTable.mem_keys_setBucket] at hg
    by_cases hc : l1.length = 0 ∧ mf = f
    · rw [if_pos hc]
      rcases hg with rfl | ⟨rfl, hne⟩ | ⟨hg1, hg2⟩
      · omega
      · exact absurd (List.length_eq_zero.1 hc.1) hne
      · have := hm.2 g hg1
        omega
    · rw [if_neg hc]
      rcases hg with rfl | ⟨rfl, -⟩ | ⟨hg1, -⟩
      · omega
      · exact hle
      · exact hm.2 g hg1

theorem WF.of_relinked {s : LFUCache K V} (h : WF s) {f : Nat} {l : DList (Node K V)}
    {it : Nat} {n : Node K V} (hb : (f, l) ∈ s.m_freqTable) (hn : (it, n) ∈ l) (v : V) :
    WF (relinked s n.key it f l v) := by
  have hfind := h.tables.find_of_node ((FreqTable.mem_nodes _ _).2 ⟨f, l, hb, hn⟩)
  constructor
  · have := (h.tables.unlink hb hn).link n.key v (f + 1)
      (UMap.not_mem_keys_erase _ _) (by omega)
    simp only [UMap.assign, UMap.erase_erase] at this
    exact this
  · intro _
    have hne : s.m_keyTable ≠ [] := by
      intro e
      rw [e] at hfind
      simp [UMap.find] at hfind
    exact minFreqOK_relinked _ _ (h.minfreq_ok hne) (UMap.mem_keys_of_mem hb)

theorem WF.of_inserted {s : LFUCache K V} {ft0 : FreqTable K V} {kt0 : UMap K Nat}
    (h : TableWF ft0 kt0 s.fresh) (k : K) (v : V) (hk : k ∉ UMap.keys kt0) :
    WF (inserted s ft0 kt0 k v) := by
  constructor
  · exact h.link k v 1 hk (le_refl 1)
  · intro _
    constructor
    · simp only [inserted]
      rw [FreqTable.mem_keys_link]
      exact Or.inl rfl
    · intro g hg
      simp only [inserted] at hg
      rw [FreqTable.mem_keys_link] at hg
      rcases hg with rfl | hg
      · exact le_refl 1
      · obtain ⟨p, hp, rfl⟩ := List.mem_map.1 hg
        exact (h.bucket_ok p.1 p.2 hp).2.1

/-- A hit of `get` on a well-formed cache. -/
theorem WF.lfu_get_hit {s : LFUCache K V} (h : WF s) {k : K} {it : Nat}
    (hf : UMap.find s.m_keyTable k = some it) :
    ∃ f l n, (f, l) ∈ s.m_freqTable ∧ (it, n) ∈ l ∧ n.key = k ∧ n.freq = f ∧
      lookup s k = some n ∧
      get s k = some (relinked s k it f l n.value, true, some n.value) := by
  obtain ⟨f, l, n, hb, hn, hk, hfr, hd⟩ := h.tables.resolve hf
  refine ⟨f, l, n, hb, hn, hk, hfr, by simp [lookup, hf, hd], ?_⟩
  have hr := relink_eq s k it f l n.value (h.tables.find_bucket hb)
    (List.mem_map.2 ⟨_, hn, rfl⟩)
  simp only [get, hf, hd, hfr, hr]

/-- The existing-key branch of `put` on a well-formed cache. -/
theorem WF.put_present {s : LFUCache K V} (h : WF s) {k : K} {it : Nat} (v : V)
    (hf : UMap.find s.m_keyTable k = some it) :
    ∃ f l n, (f, l) ∈ s.m_freqTable ∧ (it, n) ∈ l ∧ n.key = k ∧ n.freq = f ∧
      lookup s k = some n ∧
      put s k v = some (relinked s k it f l v, true) := by
  obtain ⟨f, l, n, hb, hn, hk, hfr, hd⟩ := h.tables.resolve hf
  refine ⟨f, l, n, hb, hn, hk, hfr, by simp [lookup, hf, hd], ?_⟩
  have hr := relink_eq s k it f l v (h.tables.find_bucket hb)
    (List.mem_map.2 ⟨_, hn, rfl⟩)
  simp only [put, hf, hd, hfr, hr]

theorem evict_room (s : LFUCache K V) (h : s.m_capacity ≠ UMap.size s.m_keyTable) :
    evict s = some (s.m_freqTable, s.m_keyTable) := by
  simp [evict, h]

/-- The eviction step on a full, non-empty, well-formed cache: the last node of the
list of `m_minfreq` is removed. -/
theorem WF.evict_full {s : LFUCache K V} (h : WF s)
    (hfull : s.m_capacity = UMap.size s.m_keyTable) (hne : s.m_keyTable ≠ []) :
    ∃ l last, (s.m_minfreq, l) ∈ s.m_freqTable ∧ l.getLast? = some last ∧
      evict s = some (FreqTable.setBucket s.m_freqTable s.m_minfreq (DList.remove l last.1),
        UMap.erase s.m_keyTable last.2.key) := by
  obtain ⟨l, hl⟩ := UMap.find_isSome_of_mem_keys _ _ (h.minfreq_ok hne).1
  have hb := UMap.mem_of_find _ _ _ hl
  have hlne := (h.tables.bucket_ok _ _ hb).1
  obtain ⟨init, last, hil⟩ := (List.eq_nil_or_concat l).resolve_left hlne
  rw [List.concat_eq_append] at hil
  have hlast : l.getLast? = some last := by simp [hil]
  have hnd : (DList.addrs l).Nodup := by
    have hperm := FreqTable.nodes_perm_getD s.m_freqTable s.m_minfreq h.tables.freqs_nodup
    rw [UMap.getD_of_find [] hl] at hperm
    have := ((hperm.map Prod.fst).nodup_iff).1 h.tables.addrs_nodup
    simp only [List.map_append] at this
    exact (List.nodup_append.1 this).1
  refine ⟨l, last, hb, hlast, ?_⟩
  unfold evict
  rw [if_pos hfull]
  simp only [UMap.index_of_find [] hl, UMap.getD_of_find [] hl, DList.back, hlast,
    Option.map_some', UMap.getD_assign_self, DList.pop_back_eq_remove l last hnd hlast]
  unfold FreqTable.setBucket
  by_cases he : (DList.remove l last.1).length = 0
  · simp [he, UMap.erase_assign_self]
  · simp [he]

end LFUCache

namespace LFUCache

variable {K V : Type} [DecidableEq K]

theorem lfu_wf_new (cap : Int) : WF (new cap : LFUCache K V) := by
  constructor
  · constructor <;> simp [new, UMap.keys, FreqTable.nodes, DList.addrs, FreqTable.keyIndex]
  · intro h
    simp [new] at h

theorem lfu_good_new (cap : Int) : Good (new cap : LFUCache K V) :=
  ⟨lfu_wf_new cap, by simp [new, UMap.size]⟩

theorem Good.get_spec {s : LFUCache K V} (h : Good s) (k : K) :
    ∃ s1 r, get s k = some (s1, r) ∧ Good s1 ∧ s1.m_capacity = s.m_capacity := by
  cases hf : UMap.find s.m_keyTable k with
  | none => exact ⟨s, (false, none), by simp [get, hf], h, rfl⟩
  | some it =>
    obtain ⟨f, l, n, hb, hn, hk, -, -, hg⟩ := h.1.lfu_get_hit hf
    refine ⟨_, _, hg, ⟨?_, ?_⟩, rfl⟩
    · have := h.1.of_relinked hb hn n.value
      rw [hk] at this
      exact this
    · have := UMap.size_assign_of_mem s.m_keyTable k s.fresh h.1.tables.kt_keys_nodup
        (UMap.mem_keys_of_find hf)
      have h2 := h.2
      simp only [relinked]
      omega

theorem Good.put_present_good {s : LFUCache K V} (h : Good s) {k : K} {it : Nat} (v : V)
    (hf : UMap.find s.m_keyTable k = some it) :
    ∃ s1, put s k v = some (s1, true) ∧ Good s1 ∧ s1.m_capacity = s.m_capacity := by
  obtain ⟨f, l, n, hb, hn, hk, -, -, hg⟩ := h.1.put_present v hf
  refine ⟨_, hg, ⟨?_, ?_⟩, rfl⟩
  · have := h.1.of_relinked hb hn v
    rw [hk] at this
    exact this
  · have := UMap.size_assign_of_mem s.m_keyTable k s.fresh h.1.tables.kt_keys_nodup
      (UMap.mem_keys_of_find hf)
    have h2 := h.2
    simp only [relinked]
    omega

/-- The absent-key branch of `put` on a cache with room. -/
theorem Good.put_room {s : LFUCache K V} (h : Good s) (k : K) (v : V)
    (hf : UMap.find s.m_keyTable k = none) (hroom : UMap.size s.m_keyTable ≠ s.m_capacity) :
    put s k v = some (inserted s s.m_freqTable s.m_keyTable k v, true) ∧
      Good (inserted s s.m_freqTable s.m_keyTable k v) := by
  have hk := (UMap.find_eq_none_iff _ _).1 hf
  refine ⟨?_, WF.of_inserted h.1.tables k v hk, ?_⟩
  · simp only [put, hf, evict_room s (fun e => hroom e.symm)]
    rfl
  · have := UMap.size_assign_of_not_mem s.m_keyTable k s.fresh hk
    have h2 := h.2
    simp only [inserted]
    omega

/-- The absent-key branch of `put` on a full cache of positive capacity. -/
theorem Good.put_full {s : LFUCache K V} (h : Good s) (k : K) (v : V)
    (hf : UMap.find s.m_keyTable k = none) (hfull : UMap.size s.m_keyTable = s.m_capacity)
    (hcap : s.m_capacity ≠ 0) :
    ∃ l last, (s.m_minfreq, l) ∈ s.m_freqTable ∧ l.getLast? = some last ∧
      put s k v = some (inserted s
        (FreqTable.setBucket s.m_freqTable s.m_minfreq (DList.remove l last.1))
        (UMap.erase s.m_keyTable last.2.key) k v, true) ∧
      Good (inserted s
        (FreqTable.setBucket s.m_freqTable s.m_minfreq (DList.remove l last.1))
        (UMap.erase s.m_keyTable last.2.key) k v) := by
  have hk := (UMap.find_eq_none_iff _ _).1 hf
  have hne : s.m_keyTable ≠ [] := by
    intro e
    rw [e] at hfull
    simp [UMap.size] at hfull
    exact hcap hfull.symm
  obtain ⟨l, last, hb, hlast, he⟩ := h.1.evict_full hfull.symm hne
  have hmem : last ∈ l := List.mem_of_getLast?_eq_some hlast
  have hw := h.1.tables.unlink hb (show (last.1, last.2) ∈ l from hmem)
  have hk2 : k ∉ UMap.keys (UMap.erase s.m_keyTable last.2.key) := by
    rw [UMap.keys_erase]
    intro hm
    exact hk (List.mem_filter.1 hm).1
  refine ⟨l, last, hb, hlast, ?_, WF.of_inserted hw k v hk2, ?_⟩
  · simp only [put, hf, he]
    rfl
  · have hlk : last.2.key ∈ UMap.keys s.m_keyTable := by
      have := h.1.tables.find_of_node
        ((FreqTable.mem_nodes _ _).2 ⟨_, l, hb, (show (last.1, last.2) ∈ l from hmem)⟩)
      exact UMap.mem_keys_of_find this
    have e1 := UMap.size_erase_of_mem s.m_keyTable last.2.key h.1.tables.kt_keys_nodup hlk
    have e2 := UMap.size_assign_of_not_mem _ k s.fresh hk2
    simp only [inserted]
    omega

theorem Good.lfu_put_spec {s : LFUCache K V} (h : Good s) (hcap : s.m_capacity ≠ 0) (k : K)
    (v : V) : ∃ s1, put s k v = some (s1, true) ∧ Good s1 ∧ s1.m_capacity = s.m_capacity := by
  cases hf : UMap.find s.m_keyTable k with
  | some it => exact h.put_present_good v hf
  | none =>
    by_cases hfull : UMap.size s.m_keyTable = s.m_capacity
    · obtain ⟨l, last, -, -, hp, hg⟩ := h.put_full k v hf hfull hcap
      exact ⟨_, hp, hg, rfl⟩
    · obtain ⟨hp, hg⟩ := h.put_room k v hf hfull
      exact ⟨_, hp, hg, rfl⟩

theorem Good.step_total {s : LFUCache K V} (h : Good s) (hcap : s.m_capacity ≠ 0)
    (o : Op K V) : ∃ s1, step s o = some s1 ∧ Good s1 ∧ s1.m_capacity = s.m_capacity := by
  cases o with
  | put k v =>
    obtain ⟨s1, h1, h2, h3⟩ := h.lfu_put_spec hcap k v
    exact ⟨s1, by simp [LFUCache.step, h1], h2, h3⟩
  | get k =>
    obtain ⟨s1, r, h1, h2, h3⟩ := h.get_spec k
    exact ⟨s1, by simp [LFUCache.step, h1], h2, h3⟩

/-- With capacity 0 a well-formed cache within capacity holds nothing. -/
theorem Good.empty_of_cap_zero {s : LFUCache K V} (h : Good s) (hcap : s.m_capacity = 0) :
    s.m_keyTable = [] ∧ s.m_freqTable = [] := by
  have hk : s.m_keyTable = [] := by
    have := h.2
    rw [hcap] at this
    exact List.length_eq_zero.1 (by simpa [UMap.size] using this)
  refine ⟨hk, ?_⟩
  have hp := h.1.tables.table_perm
  rw [hk] at hp
  have hn : FreqTable.nodes s.m_freqTable = [] := by
    simpa [FreqTable.keyIndex] using hp
  cases hft : s.m_freqTable with
  | nil => rfl
  | cons p ft =>
    obtain ⟨f, l⟩ := p
    have hb : (f, l) ∈ s.m_freqTable := by simp [hft]
    have hl := (h.1.tables.bucket_ok f l hb).1
    rw [hft, FreqTable.nodes_cons] at hn
    exact absurd (List.append_eq_nil.1 hn).1 hl

theorem Good.step_some {s s1 : LFUCache K V} (h : Good s) (o : Op K V)
    (hs : step s o = some s1) : Good s1 ∧ s1.m_capacity = s.m_capacity := by
  by_cases hcap : s.m_capacity = 0
  · obtain ⟨hk, hft⟩ := h.empty_of_cap_zero hcap
    cases o with
    | put k v =>
      have : put s k v = none := by
        simp [put, hk, UMap.find, evict, hcap, UMap.size, hft, UMap.index, UMap.getD,
          DList.back]
      simp [LFUCache.step, this] at hs
    | get k =>
      have : get s k = some (s, false, none) := by simp [get, hk, UMap.find]
      simp only [LFUCache.step, this, Option.map_some', Option.some.injEq] at hs
      subst hs
      exact ⟨h, rfl⟩
  · obtain ⟨s2, h1, h2, h3⟩ := h.step_total hcap o
    rw [h1] at hs
    cases hs
    exact ⟨h2, h3⟩

theorem Good.run_some {s s1 : LFUCache K V} (h : Good s) (ops : List (Op K V))
    (hs : LFUCache.run s ops = some s1) : Good s1 ∧ s1.m_capacity = s.m_capacity := by
  induction ops generalizing s with
  | nil =>
    simp only [LFUCache.run, Option.some.injEq] at hs
    subst hs
    exact ⟨h, rfl⟩
  | cons o os ih =>
    cases hst : step s o with
    | none => simp [LFUCache.run, hst] at hs
    | some s2 =>
      simp only [LFUCache.run, hst] at hs
      obtain ⟨h2, h3⟩ := h.step_some o hst
      obtain ⟨h4, h5⟩ := ih h2 hs
      exact ⟨h4, by rw [h5, h3]⟩

theorem Reachable.lfu_good {cap : Int} {s : LFUCache K V} (h : Reachable cap s) :
    Good s ∧ s.m_capacity = toSizeT cap := by
  obtain ⟨ops, ho⟩ := h
  exact (lfu_good_new cap).run_some ops ho

end LFUCache

namespace LFUCache

variable {K V : Type} [DecidableEq K]

end LFUCache

/-! ## LFUCache: the scenarios of the frequency law and of `testLFU` -/

namespace LFUCache

variable {K V : Type} [DecidableEq K]

theorem toSizeT_three : toSizeT 3 = 3 := by
  unfold toSizeT
  omega

theorem scenario_puts (k1 k2 k3 : K) (v1 v2 v3 : V) (h12 : k1 ≠ k2) (h13 : k1 ≠ k3)
    (h23 : k2 ≠ k3) :
    LFUCache.run (LFUCache.new 3) [Op.put k1 v1, Op.put k2 v2, Op.put k3 v3]
      = some (scenario3 k1 k2 k3 v1 v2 v3) := by
  simp [LFUCache.run, LFUCache.step, put, evict, new, toSizeT_three, UMap.find,
    UMap.size, UMap.index, UMap.getD, UMap.assign, UMap.erase, DList.push_front,
    h12, h13, h23, h12.symm, h13.symm, h23.symm, scenario3]

theorem scenario_get1 (k1 k2 k3 : K) (v1 v2 v3 : V) (h12 : k1 ≠ k2) (h13 : k1 ≠ k3)
    (h23 : k2 ≠ k3) :
    get (scenario3 k1 k2 k3 v1 v2 v3) k1
      = some (scenario4 k1 k2 k3 v1 v2 v3, true, some v1) := by
  simp [get, relink, UMap.find, UMap.index, UMap.getD, UMap.assign, UMap.erase,
    DList.push_front, DList.erase, DList.deref, DList.remove, FreqTable.deref,
    h12, h13, h23, h12.symm, h13.symm, h23.symm, scenario3, scenario4]

theorem scenario_get2 (k1 k2 k3 : K) (v1 v2 v3 : V) (h12 : k1 ≠ k2) (h13 : k1 ≠ k3)
    (h23 : k2 ≠ k3) :
    get (scenario4 k1 k2 k3 v1 v2 v3) k2
      = some (scenario5 k1 k2 k3 v1 v2 v3, true, some v2) := by
  simp [get, relink, UMap.find, UMap.index, UMap.getD, UMap.assign, UMap.erase,
    DList.push_front, DList.erase, DList.deref, DList.remove, FreqTable.deref,
    h12, h13, h23, h12.symm, h13.symm, h23.symm, scenario4, scenario5]

theorem scenario_put4_after_get2 (k1 k2 k3 k4 : K) (v1 v2 v3 v4 : V) (h12 : k1 ≠ k2)
    (h13 : k1 ≠ k3) (h14 : k1 ≠ k4) (h23 : k2 ≠ k3) (h24 : k2 ≠ k4) (h34 : k3 ≠ k4) :
    put (scenario5 k1 k2 k3 v1 v2 v3) k4 v4
      = some ({ m_minfreq := 1, m_capacity := 3,
                m_freqTable := [(1, [(5, { key := k4, value := v4, freq := 1 })]),
                                (2, [(4, { key := k2, value := v2, freq := 2 }),
                                     (3, { key := k1, value := v1, freq := 2 })])],
                m_keyTable := [(k4, 5), (k2, 4), (k1, 3)],
                fresh := 6 }, true) := by
  simp [put, evict, UMap.find, UMap.size, UMap.index, UMap.getD, UMap.assign, UMap.erase,
    DList.push_front, DList.back, DList.pop_back,
    h12, h13, h14, h23, h24, h34, h12.symm, h13.symm, h14.symm, h23.symm, h24.symm,
    h34.symm, scenario5]

end LFUCache

namespace LFUCache

variable {K V : Type} [DecidableEq K]

end LFUCache

namespace LFUCache

variable {K V : Type} [DecidableEq K]

end LFUCache

/-- C5. LFU end-to-end scenario (`testLFU` for arbitrary distinct keys): on a fresh
cache of capacity 3, after `put k1 v1, put k2 v2, put k3 v3`, `get k1` returns
`(v1, true)`, then `get k2` returns `(v2, true)`, then `put k4 v4` evicts `k3`:
`get k3` reports not found and changes nothing, while `k1`, `k2`, `k4` are found with
their values. -/
theorem C5_lfu_end_to_end_scenario {K V : Type} [DecidableEq K] (k1 k2 k3 k4 : K)
    (v1 v2 v3 v4 : V) (hd : [k1, k2, k3, k4].Nodup) :
    ∃ s3 s4 s5 s6 : LFUCache K V,
      LFUCache.run (LFUCache.new 3) [Op.put k1 v1, Op.put k2 v2, Op.put k3 v3] = some s3 ∧
      LFUCache.get s3 k1 = some (s4, true, some v1) ∧
      LFUCache.get s4 k2 = some (s5, true, some v2) ∧
      LFUCache.put s5 k4 v4 = some (s6, true) ∧
      LFUCache.get s6 k3 = some (s6, false, none) ∧
      (LFUCache.get s6 k1).map Prod.snd = some (true, some v1) ∧
      (LFUCache.get s6 k2).map Prod.snd = some (true, some v2) ∧
      (LFUCache.get s6 k4).map Prod.snd = some (true, some v4) := by
  simp only [List.nodup_cons, List.mem_cons, List.mem_singleton, not_or, List.not_mem_nil,
    not_false_eq_true, List.nodup_nil, and_true, or_false] at hd
  obtain ⟨⟨h12, h13, h14⟩, ⟨h23, h24⟩, h34⟩ := hd
  have h21 : k2 ≠ k1 := fun e => h12 e.symm
  have h31 : k3 ≠ k1 := fun e => h13 e.symm
  have h41 : k4 ≠ k1 := fun e => h14 e.symm
  have h32 : k3 ≠ k2 := fun e => h23 e.symm
  have h42 : k4 ≠ k2 := fun e => h24 e.symm
  have h43 : k4 ≠ k3 := fun e => h34 e.symm
  refine ⟨_, _, _, _, LFUCache.scenario_puts k1 k2 k3 v1 v2 v3 h12 h13 h23,
    LFUCache.scenario_get1 k1 k2 k3 v1 v2 v3 h12 h13 h23,
    LFUCache.scenario_get2 k1 k2 k3 v1 v2 v3 h12 h13 h23,
    LFUCache.scenario_put4_after_get2 k1 k2 k3 k4 v1 v2 v3 v4 h12 h13 h14 h23 h24 h34,
    ?_, ?_, ?_, ?_⟩
  all_goals
    simp [LFUCache.get, LFUCache.relink, UMap.find, UMap.index, UMap.getD, UMap.assign,
      UMap.erase, DList.push_front, DList.erase, DList.deref, DList.remove,
      FreqTable.deref, h12, h13, h14, h23, h24, h34, h21, h31, h41, h32, h42, h43]

/-- Witness for C5: the calls of `testLFU`. -/
theorem C5_lfu_end_to_end_scenario_witness :
    ∃ s3 s4 s5 s6 : LFUCache Nat String,
      LFUCache.run (LFUCache.new 3) [Op.put 1 "r", Op.put 2 "a", Op.put 3 "y"] = some s3 ∧
      LFUCache.get s3 1 = some (s4, true, some "r") ∧
      LFUCache.get s4 2 = some (s5, true, some "a") ∧
      LFUCache.put s5 4 "s" = some (s6, true) ∧
      LFUCache.get s6 3 = some (s6, false, none) ∧
      (LFUCache.get s6 1).map Prod.snd = some (true, some "r") ∧
      (LFUCache.get s6 2).map Prod.snd = some (true, some "a") ∧
      (LFUCache.get s6 4).map Prod.snd = some (true, some "s") :=
  C5_lfu_end_to_end_scenario 1 2 3 4 "r" "a" "y" "s" (by decide)

/-- C7. Idempotent miss.  In every state of an `LRUCache` or `LFUCache` (reachable or
not), `get` of a key that the key index does not hold returns `false`, writes no
value and returns the state unchanged, so that the same `get` repeated returns
`false` again. -/
theorem C7_idempotent_miss {K V : Type} [DecidableEq K] :
    (∀ (s : LRUCache K V) (k : K), UMap.find s.m_map k = none →
      LRUCache.get s k = some (s, false, none) ∧
      (LRUCache.get s k).bind (fun r => LRUCache.get r.1 k) = some (s, false, none)) ∧
    (∀ (s : LFUCache K V) (k : K), UMap.find s.m_keyTable k = none →
      LFUCache.get s k = some (s, false, none) ∧
      (LFUCache.get s k).bind (fun r => LFUCache.get r.1 k) = some (s, false, none)) := by
  constructor
  · intro s k h
    have : LRUCache.get s k = some (s, false, none) := by simp [LRUCache.get, h]
    exact ⟨this, by simp [this]⟩
  · intro s k h
    have : LFUCache.get s k = some (s, false, none) := by simp [LFUCache.get, h]
    exact ⟨this, by simp [this]⟩

/-- Witness for C7: key 2 after the calls of `testLRU`, key 3 after those of
`testLFU`. -/
theorem C7_idempotent_miss_witness :
    (LRUCache.get (⟨3, [(3, 4, "'"), (2, 1, "r"), (1, 3, "y")],
        [(4, 3), (1, 2), (3, 1)], 4⟩ : LRUCache Nat String) 2
        = some (⟨3, [(3, 4, "'"), (2, 1, "r"), (1, 3, "y")], [(4, 3), (1, 2), (3, 1)], 4⟩,
            false, none) ∧
      (LRUCache.get (⟨3, [(3, 4, "'"), (2, 1, "r"), (1, 3, "y")],
        [(4, 3), (1, 2), (3, 1)], 4⟩ : LRUCache Nat String) 2).bind
          (fun r => LRUCache.get r.1 2)
        = some (⟨3, [(3, 4, "'"), (2, 1, "r"), (1, 3, "y")], [(4, 3), (1, 2), (3, 1)], 4⟩,
            false, none)) ∧
    (LFUCache.get (LFUCache.scenario3 1 2 3 "r" "a" "y") 4
        = some (LFUCache.scenario3 1 2 3 "r" "a" "y", false, none) ∧
      (LFUCache.get (LFUCache.scenario3 1 2 3 "r" "a" "y") 4).bind
          (fun r => LFUCache.get r.1 4)
        = some (LFUCache.scenario3 1 2 3 "r" "a" "y", false, none)) :=
  ⟨C7_idempotent_miss.1 _ 2 (by decide), C7_idempotent_miss.2 _ 4 (by decide)⟩

/-! ## Invariants of the reachable states -/

/-- C16. In every state reached by `put`/`get` from a fresh `LRUCache` (any capacity):
the keys of the map are the keys of the sequence, no key occurs twice in the sequence
(nor in the map), the iterator stored for a key points at the node that carries this
key, and every node of the sequence is the one its key is mapped to. -/
theorem C16_lru_index_sequence_consistency {K V : Type} [DecidableEq K] (cap : Int)
    (s : LRUCache K V) (hr : LRUCache.Reachable cap s) :
    (∀ k, k ∈ UMap.keys s.m_map ↔ k ∈ (LRUCache.entries s).map Prod.fst) ∧
    ((LRUCache.entries s).map Prod.fst).Nodup ∧
    (UMap.keys s.m_map).Nodup ∧
    (∀ k it, UMap.find s.m_map k = some it → ∃ v, DList.deref s.m_list it = some (k, v)) ∧
    (∀ it k v, (it, (k, v)) ∈ s.m_list → UMap.find s.m_map k = some it) := by
  have hw := hr.lru_good.1.1
  refine ⟨hw.keys_eq_entries, hw.entries_keys_nodup, hw.map_keys_nodup, ?_, ?_⟩
  · intro k it hf
    obtain ⟨v, hv⟩ := (hw.find_some_iff k it).1 hf
    exact ⟨v, DList.deref_of_mem _ _ _ hw.addrs_nodup hv⟩
  · intro it k v hm
    exact (hw.find_some_iff k it).2 ⟨v, hm⟩

/-- Witness for C16: the cache of `testLRU` after all its calls. -/
theorem C16_lru_index_sequence_consistency_witness :
    (∀ k, k ∈ UMap.keys [(4, 4), (1, 3), (3, 2)] ↔
      k ∈ (LRUCache.entries (⟨3, [(4, 4, "s"), (3, 1, "r"), (2, 3, "y")],
        [(4, 4), (1, 3), (3, 2)], 5⟩ : LRUCache Nat String)).map Prod.fst) ∧
    ((LRUCache.entries (⟨3, [(4, 4, "s"), (3, 1, "r"), (2, 3, "y")],
        [(4, 4), (1, 3), (3, 2)], 5⟩ : LRUCache Nat String)).map Prod.fst).Nodup ∧
    (UMap.keys [(4, 4), (1, 3), (3, 2)]).Nodup ∧
    (∀ k it, UMap.find [(4, 4), (1, 3), (3, 2)] k = some it →
      ∃ v, DList.deref [(4, 4, "s"), (3, 1, "r"), (2, 3, "y")] it = some (k, v)) ∧
    (∀ it k v, (it, (k, v)) ∈ [(4, 4, "s"), (3, 1, "r"), (2, 3, "y")] →
      UMap.find [(4, 4), (1, 3), (3, 2)] k = some it) :=
  C16_lru_index_sequence_consistency 3
    ⟨3, [(4, 4, "s"), (3, 1, "r"), (2, 3, "y")], [(4, 4), (1, 3), (3, 2)], 5⟩
    ⟨[Op.put 1 "r", Op.put 2 "a", Op.put 3 "y", Op.get 1, Op.put 4 "s", Op.get 2],
      by decide⟩

/-- C15. In every state reached by `put`/`get` from a fresh `LFUCache`, every frequency
that is a key of the frequency table is mapped to a non-empty list. -/
theorem C15_lfu_only_nonempty_buckets {K V : Type} [DecidableEq K] (cap : Int)
    (s : LFUCache K V) (hr : LFUCache.Reachable cap s) :
    (∀ f l, (f, l) ∈ s.m_freqTable → l ≠ []) ∧
    (∀ f, f ∈ UMap.keys s.m_freqTable →
      ∃ l, UMap.find s.m_freqTable f = some l ∧ 0 < l.length) := by
  have hw := hr.lfu_good.1.1
  refine ⟨fun f l hb => (hw.tables.bucket_ok f l hb).1, ?_⟩
  intro f hf
  obtain ⟨l, hl⟩ := UMap.find_isSome_of_mem_keys _ _ hf
  have := (hw.tables.bucket_ok f l (UMap.mem_of_find _ _ _ hl)).1
  exact ⟨l, hl, List.length_pos.2 this⟩

/-- Witness for C15: the cache of `testLFU` after `put 1, put 2, put 3, get 1`. -/
theorem C15_lfu_only_nonempty_buckets_witness :
    (∀ f l, (f, l) ∈ (LFUCache.scenario4 1 2 3 "r" "a" "y").m_freqTable → l ≠ []) ∧
    (∀ f, f ∈ UMap.keys (LFUCache.scenario4 1 2 3 "r" "a" "y").m_freqTable →
      ∃ l, UMap.find (LFUCache.scenario4 1 2 3 "r" "a" "y").m_freqTable f = some l ∧
        0 < l.length) :=
  C15_lfu_only_nonempty_buckets 3 (LFUCache.scenario4 1 2 3 "r" "a" "y")
    ⟨[Op.put 1 "r", Op.put 2 "a", Op.put 3 "y", Op.get 1], by decide⟩

namespace LFUCache

variable {K V : Type} [DecidableEq K]

end LFUCache

/-- C11. What the code does on an `LFUCache` of capacity 0: a fresh cache counts as
full (`m_capacity == m_keyTable.size()`), so `put` of any key runs the eviction step,
which evaluates `m_freqTable[m_minfreq]` (inserting an empty list) and calls `back()`
on that empty list; the call is undefined and yields no state. -/
theorem C11_lfu_capacity_zero_put_undefined {K V : Type} [DecidableEq K] (k : K) (v : V) :
    (LFUCache.new 0 : LFUCache K V).m_capacity
      = UMap.size (LFUCache.new 0 : LFUCache K V).m_keyTable ∧
    UMap.getD (UMap.index (LFUCache.new 0 : LFUCache K V).m_freqTable
      (LFUCache.new 0 : LFUCache K V).m_minfreq []) (LFUCache.new 0 : LFUCache K V).m_minfreq []
      = [] ∧
    LFUCache.evict (LFUCache.new 0 : LFUCache K V) = none ∧
    LFUCache.put (LFUCache.new 0 : LFUCache K V) k v = none := by
  have h0 : toSizeT 0 = 0 := by simp [toSizeT]
  refine ⟨?_, ?_, ?_, ?_⟩ <;>
    simp [LFUCache.put, LFUCache.evict, LFUCache.new, h0, UMap.size, UMap.find, UMap.index,
      UMap.getD, DList.back]


/-! ## LRUCache: the three cases of `put` -/

namespace LRUCache

variable {K V : Type} [DecidableEq K]

/-- On a reachable-like state of positive capacity `put` either keeps every other
entry (the key was stored, or there was room) or drops the last entry of the
sequence (the key was absent and the cache full). -/
theorem Good.put_cases {s : LRUCache K V} (h : Good s) (hcap : 1 ≤ s.m_capacity) (k : K)
    (v : V) :
    ∃ s1, LRUCache.put s k v = some (s1, true) ∧ Good s1 ∧ s1.m_capacity = s.m_capacity ∧
      (((k ∈ (entries s).map Prod.fst ∨ (entries s).length < s.m_capacity) ∧
          entries s1 = (k, v) :: (entries s).filter (fun e => !decide (e.1 = k))) ∨
       (k ∉ (entries s).map Prod.fst ∧ (entries s).length = s.m_capacity ∧
          ∃ init last, entries s = init ++ [last] ∧ entries s1 = (k, v) :: init)) := by
  obtain ⟨s1, h1, g1, c1, e1⟩ := h.put k v
  have hlen := h.2
  rw [← length_entries] at hlen
  refine ⟨s1, h1, g1, c1, ?_⟩
  by_cases hk : k ∈ (entries s).map Prod.fst
  · left
    refine ⟨Or.inl hk, ?_⟩
    obtain ⟨p, hp, hpk⟩ := List.mem_map.1 hk
    have hlt : ((entries s).filter (fun e => !decide (e.1 = k))).length
        < (entries s).length := by
      apply List.length_filter_lt_length_iff_exists.2
      exact ⟨p, hp, by simp [hpk]⟩
    have hno : ¬ ((k, v) :: (entries s).filter (fun e => !decide (e.1 = k))).length
        > s.m_capacity := by
      simp only [List.length_cons]
      omega
    rw [e1]
    unfold putEntries
    rw [if_neg hno]
  · rcases Nat.lt_or_eq_of_le hlen with hlt | heq
    · left
      refine ⟨Or.inr hlt, ?_⟩
      rw [e1, putEntries_room _ _ _ _ hk hlt, filter_key_of_not_mem _ _ hk]
    · right
      refine ⟨hk, heq, ?_⟩
      have hne : entries s ≠ [] := by
        intro e
        rw [e] at heq
        simp at heq
        omega
      obtain ⟨init, last, hil⟩ := (List.eq_nil_or_concat (entries s)).resolve_left hne
      rw [List.concat_eq_append] at hil
      refine ⟨init, last, hil, ?_⟩
      rw [e1, putEntries_full _ _ _ _ hk heq, hil]
      have : (k, v) :: (init ++ [last]) = ((k, v) :: init) ++ [last] := rfl
      rw [this, List.dropLast_concat]

end LRUCache

/-- C12. In a reachable `LRUCache` state of capacity `c ≥ 1` (fitting `std::size_t`,
as every `int` does) `put k v` returns and
(a) when `k` was stored, its entry is removed from its place and `(k, v)` becomes the
head, every other entry keeping its value and place in the order;
(b) when `k` was absent and fewer than `c` entries were held, `(k, v)` becomes the head
in front of the unchanged sequence;
(c) when `k` was absent and `c` entries were held, the last entry of the sequence is
dropped, its key leaves the map, and `(k, v)` becomes the head in front of the others;
in cases (a) and (b) every key of the map stays, in case (c) every key but the last
one's does, and in all cases at most one key of the map is removed. -/
theorem C12_lru_single_tail_eviction {K V : Type} [DecidableEq K] (c : Nat) (hc : 1 ≤ c)
    (hfit : c < 2 ^ 64) (s : LRUCache K V) (hr : LRUCache.Reachable (c : Int) s) (k : K)
    (v : V) :
    ∃ s1, LRUCache.put s k v = some (s1, true) ∧
      (∀ v0 pre post, LRUCache.entries s = pre ++ (k, v0) :: post →
        LRUCache.entries s1 = (k, v) :: (pre ++ post)) ∧
      (k ∉ (LRUCache.entries s).map Prod.fst → (LRUCache.entries s).length < c →
        LRUCache.entries s1 = (k, v) :: LRUCache.entries s) ∧
      (k ∉ (LRUCache.entries s).map Prod.fst → (LRUCache.entries s).length = c →
        ∃ init last, LRUCache.entries s = init ++ [last] ∧
          LRUCache.entries s1 = (k, v) :: init ∧
          last.1 ∈ UMap.keys s.m_map ∧ last.1 ∉ UMap.keys s1.m_map ∧
          ∀ k', k' ∈ UMap.keys s.m_map → k' ≠ last.1 → k' ∈ UMap.keys s1.m_map) ∧
      (k ∈ (LRUCache.entries s).map Prod.fst ∨ (LRUCache.entries s).length < c →
        ∀ k', k' ∈ UMap.keys s.m_map → k' ∈ UMap.keys s1.m_map) ∧
      (∀ k1 k2, k1 ∈ UMap.keys s.m_map → k2 ∈ UMap.keys s.m_map →
        k1 ∉ UMap.keys s1.m_map → k2 ∉ UMap.keys s1.m_map → k1 = k2) := by
  obtain ⟨hg, hcap⟩ := hr.lru_good
  rw [toSizeT_natCast c hfit] at hcap
  obtain ⟨s1, h1, g1, -, hcase⟩ := hg.put_cases (by rw [hcap]; exact hc) k v
  rw [hcap] at hcase
  have hnd := hg.1.entries_keys_nodup
  have hlen := hg.2
  rw [← LRUCache.length_entries, hcap] at hlen
  -- keys kept when the filtered sequence stays behind the new head
  have hkeep : LRUCache.entries s1
        = (k, v) :: (LRUCache.entries s).filter (fun e => !decide (e.1 = k)) →
      ∀ k', k' ∈ UMap.keys s.m_map → k' ∈ UMap.keys s1.m_map := by
    intro e k' hk'
    rw [g1.1.keys_eq_entries, e]
    rw [hg.1.keys_eq_entries] at hk'
    obtain ⟨p, hp, hpk⟩ := List.mem_map.1 hk'
    by_cases hkk : k' = k
    · simp [hkk]
    · simp only [List.map_cons, List.mem_cons]
      right
      refine List.mem_map.2 ⟨p, List.mem_filter.2 ⟨hp, ?_⟩, hpk⟩
      have : ¬ p.1 = k := fun x => hkk (hpk ▸ x)
      simp [this]
  -- the full case
  have hdrop : ∀ init last, LRUCache.entries s = init ++ [last] →
      k ∉ (LRUCache.entries s).map Prod.fst → LRUCache.entries s1 = (k, v) :: init →
      last.1 ∈ UMap.keys s.m_map ∧ last.1 ∉ UMap.keys s1.m_map ∧
        ∀ k', k' ∈ UMap.keys s.m_map → k' ≠ last.1 → k' ∈ UMap.keys s1.m_map := by
    intro init last hil hk e
    rw [hil] at hnd hk
    simp only [List.map_append, List.map_cons, List.map_nil, List.nodup_append,
      List.mem_append, List.mem_singleton, not_or, List.mem_cons, List.not_mem_nil,
      or_false] at hnd hk
    refine ⟨?_, ?_, ?_⟩
    · rw [hg.1.keys_eq_entries, hil]
      simp
    · rw [g1.1.keys_eq_entries, e]
      simp only [List.map_cons, List.mem_cons, not_or]
      exact ⟨fun x => hk.2 x.symm, fun x => hnd.2.2 x (by simp)⟩
    · intro k' hk' hne
      rw [g1.1.keys_eq_entries, e]
      rw [hg.1.keys_eq_entries, hil] at hk'
      simp only [List.map_append, List.map_cons, List.map_nil, List.mem_append,
        List.mem_singleton, List.mem_cons, List.not_mem_nil, or_false] at hk'
      simp only [List.map_cons, List.mem_cons]
      rcases hk' with hk' | hk'
      · exact Or.inr hk'
      · exact absurd hk' hne
  refine ⟨s1, h1, ?_, ?_, ?_, ?_, ?_⟩
  · intro v0 pre post hsplit
    rcases hcase with ⟨-, e⟩ | ⟨hk, -, -⟩
    · rw [e, hsplit, LRUCache.filter_key_split pre post k v0 (hsplit ▸ hnd)]
    · exact absurd (by rw [hsplit]; simp) hk
  · intro hk hlt
    rcases hcase with ⟨-, e⟩ | ⟨-, heq, -⟩
    · rw [e, LRUCache.filter_key_of_not_mem _ _ hk]
    · omega
  · intro hk heq
    rcases hcase with ⟨hor, -⟩ | ⟨-, -, init, last, hil, e⟩
    · rcases hor with hor | hor
      · exact absurd hor hk
      · omega
    · exact ⟨init, last, hil, e, hdrop init last hil hk e⟩
  · intro hor
    rcases hcase with ⟨-, e⟩ | ⟨hk, heq, -⟩
    · exact hkeep e
    · rcases hor with hor | hor
      · exact absurd hor hk
      · omega
  · intro k1 k2 hk1 hk2 hn1 hn2
    rcases hcase with ⟨-, e⟩ | ⟨hk, -, init, last, hil, e⟩
    · exact absurd (hkeep e k1 hk1) hn1
    · obtain ⟨-, -, hothers⟩ := hdrop init last hil hk e
      have e1 : k1 = last.1 := by
        by_contra hne
        exact hn1 (hothers k1 hk1 hne)
      have e2 : k2 = last.1 := by
        by_contra hne
        exact hn2 (hothers k2 hk2 hne)
      rw [e1, e2]

/-- Witness for C12: the full capacity-3 cache of `testLRU` before `put 4`. -/
theorem C12_lru_single_tail_eviction_witness :
    ∃ s1, LRUCache.put (⟨3, [(3, 1, "r"), (2, 3, "y"), (1, 2, "a")],
        [(1, 3), (3, 2), (2, 1)], 4⟩ : LRUCache Nat String) 4 "s" = some (s1, true) ∧
      (∀ v0 pre post, LRUCache.entries (⟨3, [(3, 1, "r"), (2, 3, "y"), (1, 2, "a")],
          [(1, 3), (3, 2), (2, 1)], 4⟩ : LRUCache Nat String) = pre ++ (4, v0) :: post →
        LRUCache.entries s1 = (4, "s") :: (pre ++ post)) ∧
      (4 ∉ (LRUCache.entries (⟨3, [(3, 1, "r"), (2, 3, "y"), (1, 2, "a")],
          [(1, 3), (3, 2), (2, 1)], 4⟩ : LRUCache Nat String)).map Prod.fst →
        (LRUCache.entries (⟨3, [(3, 1, "r"), (2, 3, "y"), (1, 2, "a")],
          [(1, 3), (3, 2), (2, 1)], 4⟩ : LRUCache Nat String)).length < 3 →
        LRUCache.entries s1 = (4, "s") :: LRUCache.entries
          (⟨3, [(3, 1, "r"), (2, 3, "y"), (1, 2, "a")],
            [(1, 3), (3, 2), (2, 1)], 4⟩ : LRUCache Nat String)) ∧
      (4 ∉ (LRUCache.entries (⟨3, [(3, 1, "r"), (2, 3, "y"), (1, 2, "a")],
          [(1, 3), (3, 2), (2, 1)], 4⟩ : LRUCache Nat String)).map Prod.fst →
        (LRUCache.entries (⟨3, [(3, 1, "r"), (2, 3, "y"), (1, 2, "a")],
          [(1, 3), (3, 2), (2, 1)], 4⟩ : LRUCache Nat String)).length = 3 →
        ∃ init last, LRUCache.entries (⟨3, [(3, 1, "r"), (2, 3, "y"), (1, 2, "a")],
            [(1, 3), (3, 2), (2, 1)], 4⟩ : LRUCache Nat String) = init ++ [last] ∧
          LRUCache.entries s1 = (4, "s") :: init ∧
          last.1 ∈ UMap.keys [(1, 3), (3, 2), (2, 1)] ∧ last.1 ∉ UMap.keys s1.m_map ∧
          ∀ k', k' ∈ UMap.keys [(1, 3), (3, 2), (2, 1)] → k' ≠ last.1 →
            k' ∈ UMap.keys s1.m_map) ∧
      (4 ∈ (LRUCache.entries (⟨3, [(3, 1, "r"), (2, 3, "y"), (1, 2, "a")],
          [(1, 3), (3, 2), (2, 1)], 4⟩ : LRUCache Nat String)).map Prod.fst ∨
        (LRUCache.entries (⟨3, [(3, 1, "r"), (2, 3, "y"), (1, 2, "a")],
          [(1, 3), (3, 2), (2, 1)], 4⟩ : LRUCache Nat String)).length < 3 →
        ∀ k', k' ∈ UMap.keys [(1, 3), (3, 2), (2, 1)] → k' ∈ UMap.keys s1.m_map) ∧
      (∀ k1 k2, k1 ∈ UMap.keys [(1, 3), (3, 2), (2, 1)] →
        k2 ∈ UMap.keys [(1, 3), (3, 2), (2, 1)] →
        k1 ∉ UMap.keys s1.m_map → k2 ∉ UMap.keys s1.m_map → k1 = k2) :=
  C12_lru_single_tail_eviction 3 (by decide) (by decide)
    ⟨3, [(3, 1, "r"), (2, 3, "y"), (1, 2, "a")], [(1, 3), (3, 2), (2, 1)], 4⟩
    ⟨[Op.put 1 "r", Op.put 2 "a", Op.put 3 "y", Op.get 1], by decide⟩ 4 "s"


/-! ## LFUCache: what one call changes -/

namespace LFUCache

variable {K V : Type} [DecidableEq K]

end LFUCache

namespace LFUCache

variable {K V : Type} [DecidableEq K]

end LFUCache

end LruLfu
